import Mathlib

set_option maxHeartbeats 1000000

namespace OrgTools

/-!
Shallow embedding of the fact-extraction, anchor-ranking, bridge-plan and
validation core of the repository (server/app/services): text_utils.py,
target_analysis.py, anchors.py, bridge_plan.py, proof_points.py,
validation.py and the constants they use.

Strings are modelled as Lean strings over the ASCII fragment: the Unicode
NFKD decomposition and combining-mark stripping performed by
normalize_key in the source are the identity on this fragment, and
str.lower is modelled by ASCII lowercasing (Char.toLower).
-/

/-- Characters kept by the normalization regex [^a-z0-9] (after lowering). -/
def isKeyChar (c : Char) : Bool :=
  (decide ('a' ≤ c) && decide (c ≤ 'z')) || (decide ('0' ≤ c) && decide (c ≤ '9'))

def isDigitCh (c : Char) : Bool := decide ('0' ≤ c) && decide (c ≤ '9')

/-- Python str.split / strip whitespace (ASCII fragment). -/
def isPyWs (c : Char) : Bool :=
  c == ' ' || c == '\t' || c == '\n' || c == '\r' || c == '\x0b' || c == '\x0c'

/-- Python regex word character (ASCII fragment), used for word boundaries. -/
def isWordChar (c : Char) : Bool :=
  (decide ('a' ≤ c) && decide (c ≤ 'z')) ||
  (decide ('A' ≤ c) && decide (c ≤ 'Z')) ||
  (decide ('0' ≤ c) && decide (c ≤ '9')) || c == '_'

/-- Prepend a character to the first run (opening one if none exist). -/
def consRun (c : Char) : List (List Char) → List (List Char)
  | [] => [[c]]
  | r :: rt => (c :: r) :: rt

/-- Whether the next character continues the current run. -/
def headSat (p : Char → Bool) : List Char → Bool
  | [] => false
  | d :: _ => p d

/-- Maximal runs of characters satisfying p, in order; the model of
splitting a string on the complement of p. -/
def runsBy (p : Char → Bool) : List Char → List (List Char)
  | [] => []
  | c :: rest =>
    if p c then
      if headSat p rest then consRun c (runsBy p rest)
      else [c] :: runsBy p rest
    else runsBy p rest

/-- Join runs with single spaces (the replacement side of the
normalization regex, combined with the final strip). -/
def joinSp : List (List Char) → List Char
  | [] => []
  | [r] => r
  | r :: rs => r ++ ' ' :: joinSp rs

/-- normalize_key from text_utils.py: lowercase, collapse non-alphanumeric
runs to single spaces, trim.  NFKD decomposition and combining-mark
stripping are the identity on the modelled ASCII fragment. -/
def normalize_key (text : String) : String :=
  ⟨joinSp (runsBy isKeyChar (text.data.map Char.toLower))⟩

/-- tokenize from text_utils.py: split on non-alphanumeric boundaries of
the lowered text, keep only tokens of length at least 4. -/
def tokenize (text : String) : List String :=
  ((runsBy isKeyChar (text.data.map Char.toLower)).filter
    (fun r => decide (4 ≤ r.length))).map (fun r => (⟨r⟩ : String))

/-- Python " ".join(s.split()): collapse whitespace runs to single
spaces and trim (the split() skips empties, so the extra strip in the
source is a no-op). -/
def collapseWs (s : String) : String :=
  ⟨joinSp (runsBy (fun c => !isPyWs c) s.data)⟩

/-- Python s.split() with no separator. -/
def pySplitWs (s : String) : List String :=
  (runsBy (fun c => !isPyWs c) s.data).map (fun r => (⟨r⟩ : String))

/-- Python s.strip(). -/
def pyStrip (s : String) : String :=
  ⟨((s.data.dropWhile isPyWs).reverse.dropWhile isPyWs).reverse⟩

/-- Python s.rstrip(). -/
def pyRstrip (s : String) : String :=
  ⟨(s.data.reverse.dropWhile isPyWs).reverse⟩

/-- Python s.lower() on the ASCII fragment. -/
def pyLower (s : String) : String := ⟨s.data.map Char.toLower⟩

/-- Python s[:n] (slicing by characters). -/
def pyTake (n : Nat) (s : String) : String := ⟨s.data.take n⟩

/-- Substring containment on character lists (Python "needle in haystack"). -/
def containsSub (n : List Char) : List Char → Bool
  | [] => n.isEmpty
  | c :: rest => n.isPrefixOf (c :: rest) || containsSub n rest

/-- Python "needle in haystack" for strings. -/
def containsSubStr (n h : String) : Bool := containsSub n.data h.data

/-- Python s.endswith(suffix). -/
def endsWithStr (suffix s : String) : Bool :=
  suffix.data.reverse.isPrefixOf s.data.reverse

/-- The characters strictly before the first occurrence of sep
(Python s.split(sep, 1)[0]), when sep occurs. -/
def splitFirstSub (sep : List Char) : List Char → Option (List Char)
  | [] => if sep.isEmpty then some [] else none
  | c :: rest =>
    if sep.isPrefixOf (c :: rest) then some []
    else (splitFirstSub sep rest).map (fun pre => c :: pre)

/-- The characters strictly after the first occurrence of sep
(Python s.split(sep, 1)[1]), when sep occurs. -/
def afterFirstSub (sep : List Char) : List Char → Option (List Char)
  | [] => if sep.isEmpty then some [] else none
  | c :: rest =>
    if sep.isPrefixOf (c :: rest) then some ((c :: rest).drop sep.length)
    else afterFirstSub sep rest

/-! Regex scan helpers.  The word-boundary patterns in the source are
modelled positionally: a match exists iff at some position the previous
character (if any) is not a word character, the literal is a prefix of
the remaining text, and the following character (if any) is not a word
character (for patterns ending in a word boundary). -/

/-- Word boundary after a match: end of text or a non-word character. -/
def boundaryAfter : List Char → Bool
  | [] => true
  | c :: _ => !isWordChar c

/-- Word boundary before a position, given the previous character. -/
def prevBoundary : Option Char → Bool
  | none => true
  | some c => !isWordChar c

/-- One of the literals is found at this position, followed by a word
boundary (the hit function for patterns of shape \b(w1|...|wn)\b). -/
def wordHitB (ws : List String) (l : List Char) : Bool :=
  ws.any fun w => w.data.isPrefixOf l && boundaryAfter (l.drop w.data.length)

/-- re.search for a pattern that needs a word boundary before the match:
try every position, tracking the previous character. -/
def scanHits (hit : List Char → Bool) : Option Char → List Char → Bool
  | _, [] => false
  | prev, c :: rest =>
    (prevBoundary prev && hit (c :: rest)) || scanHits hit (some c) rest

/-- re.search for a pattern with no boundary requirement before the match. -/
def scanAny (hit : List Char → Bool) : List Char → Bool
  | [] => false
  | c :: rest => hit (c :: rest) || scanAny hit rest

/-! text_utils.py, remaining functions. -/

/-- tokens_without_stopwords: the Python set is modelled as the list of
first occurrences (dedup); only membership and intersection size are used. -/
def tokens_without_stopwords (text : String) (stopwords : List String) : List String :=
  ((pySplitWs (normalize_key text)).filter
    (fun t => t != "" && !stopwords.contains t)).dedup

/-- match_entity from text_utils.py. -/
def match_entity (a b : String) (stopwords : List String) (min_token_overlap : Nat) : Bool :=
  let na := normalize_key a
  let nb := normalize_key b
  if na == "" || nb == "" then false
  else if containsSubStr na nb || containsSubStr nb na then true
  else
    let tokens_a := tokens_without_stopwords a stopwords
    let tokens_b := tokens_without_stopwords b stopwords
    let overlap := (tokens_a.filter (fun t => tokens_b.contains t)).length
    decide (max 1 min_token_overlap ≤ overlap)

/-- is_nyc from text_utils.py. -/
def is_nyc (location : String) : Bool :=
  let loc := normalize_key location
  containsSubStr "new york" loc || containsSubStr "nyc" loc || endsWithStr " ny" loc

/-- One pass of compact_role_title: cut the text at the first occurrence
of the separator, if present, and strip. -/
def cutAtSep (t : String) (sep : String) : String :=
  match splitFirstSub sep.data t.data with
  | some pre => pyStrip ⟨pre⟩
  | none => t

/-- compact_role_title from text_utils.py. -/
def compact_role_title (title : String) : String :=
  if title == "" then ""
  else
    let text := collapseWs title
    let text := [" | ", " — ", " – ", " - ", ","].foldl cutAtSep text
    if decide (60 < text.length) then pyRstrip (pyTake 57 text) ++ "..." else text

/-! target_analysis.py. -/

/-- SHORT_EMPLOYMENT_TYPES (a set in the source; only membership is used). -/
def SHORT_EMPLOYMENT_TYPES : List String :=
  ["full time", "part time", "contract", "temporary", "freelance",
   "internship", "apprenticeship", "self employed", "seasonal"]

def monthWords : List String :=
  ["jan", "feb", "mar", "apr", "may", "jun", "jul", "aug", "sep", "sept",
   "oct", "nov", "dec"]

def durationUnitWords : List String :=
  ["yr", "yrs", "year", "years", "mo", "mos", "month", "months"]

/-- Hit function for \d+\s*(yrs?|years?|mos?|months?)\b at a position:
one or more digits, then spaces (the input is normalized, so \s matches
only spaces), then a unit word followed by a word boundary.  The greedy
digit and space consumption is forced: after the digits only a non-digit
can follow, and the unit words start with letters. -/
def durationHit (l : List Char) : Bool :=
  let ds := l.takeWhile isDigitCh
  if ds.isEmpty then false
  else
    let rest := (l.dropWhile isDigitCh).dropWhile (fun c => c == ' ')
    durationUnitWords.any fun w =>
      w.data.isPrefixOf rest && boundaryAfter (rest.drop w.data.length)

/-- Hit function for \b\d{4}\b at a position (the boundary before is
checked by the scanner): exactly four digits then a word boundary. -/
def year4Hit (l : List Char) : Bool :=
  decide (4 ≤ l.length) && (l.take 4).all isDigitCh && boundaryAfter (l.drop 4)

/-- is_likely_metadata_company from target_analysis.py. -/
def is_likely_metadata_company (value : String) : Bool :=
  let normalized := normalize_key value
  if normalized == "" then true
  else if SHORT_EMPLOYMENT_TYPES.contains normalized then true
  else if scanAny durationHit normalized.data then true
  else if scanHits (wordHitB monthWords) none normalized.data then true
  else if containsSubStr "present" normalized &&
          scanHits year4Hit none normalized.data then true
  else false

/-! classify_text_tags.  Each TAG_PATTERNS regex is an alternation; a
match exists iff one of the alternatives matches somewhere, so the
alternation order is irrelevant for the boolean result.  \w*\b after a
literal is always satisfiable (consume the maximal word-character run),
so \bstatistic\w*\b and \bquant\w*\b reduce to a word boundary followed
by the literal. -/

def analyticsTagMatch (s : String) : Bool :=
  scanHits (wordHitB ["data", "analytics", "ml", "machine learning", "sql",
                      "python", "bi", "stat", "stats", "ai"]) none s.data
  || containsSubStr "business intelligence" s
  || scanHits (fun suf => ("statistic".data.isPrefixOf suf : Bool)
        || ("quant".data.isPrefixOf suf : Bool)) none s.data

def productTagMatch (s : String) : Bool :=
  scanHits (wordHitB ["product", "pm", "growth", "roadmap"]) none s.data
  || containsSubStr "product management" s

def cvTagMatch (s : String) : Bool :=
  ["computer vision", "vision", "opencv", "yolo", "camera", "radar",
   "perception", "imaging"].any (fun w => containsSubStr w s)

def communityTagMatch (s : String) : Bool :=
  ["community", "partnership", "outreach", "events", "club",
   "association"].any (fun w => containsSubStr w s)

def financeTagMatch (s : String) : Bool :=
  ["finance", "trading", "investment", "bank", "equity"].any
    (fun w => containsSubStr w s)

/-- classify_text_tags: the returned set is modelled as the list of
matching tags in the fixed TAG_PATTERNS table order; only membership is
consumed downstream. -/
def classify_text_tags (text : String) : List String :=
  let lowered := pyLower text
  (if analyticsTagMatch lowered then ["analytics"] else []) ++
  (if productTagMatch lowered then ["product"] else []) ++
  (if cvTagMatch lowered then ["cv"] else []) ++
  (if communityTagMatch lowered then ["community"] else []) ++
  (if financeTagMatch lowered then ["finance"] else [])

/-! Profile records.  The dict-shaped profiles of the source become
records with named fields; every accessor in the source defaults a
missing field to the empty string or list, which the record fields
carry directly. -/

structure TargetExperience where
  title : String
  company : String
deriving DecidableEq

structure TargetEducation where
  school : String
deriving DecidableEq

structure TargetProfile where
  name : String
  headline : String
  location : String
  about : String
  top_experiences : List TargetExperience
  education : List TargetEducation
deriving DecidableEq

structure MyProfile where
  headline : String
  location : String
  schools : List String
  experiences : List String
  proof_points : List String
  focus_areas : List String
  internship_goal : String
  do_not_say : List String
deriving DecidableEq

def emptyTargetProfile : TargetProfile := ⟨"", "", "", "", [], []⟩

def emptyMyProfile : MyProfile := ⟨"", "", [], [], [], [], "", []⟩

/-- build_target_text from target_analysis.py. -/
def build_target_text (tp : TargetProfile) : String :=
  let parts := [tp.name, tp.headline, tp.location, tp.about]
    ++ ((tp.top_experiences.map (fun e => [e.title, e.company])).flatten)
    ++ tp.education.map (fun e => e.school)
  pyStrip (String.intercalate " " (parts.filter (fun p => p != "")))

/-- build_my_profile_text from target_analysis.py. -/
def build_my_profile_text (mp : MyProfile) : String :=
  let parts := [mp.headline, mp.location, mp.internship_goal]
    ++ mp.experiences ++ mp.focus_areas ++ mp.proof_points
  pyStrip (String.intercalate " " (parts.filter (fun p => p != "")))

def classify_my_profile (mp : MyProfile) : List String :=
  classify_text_tags (build_my_profile_text mp)

def classify_target (tp : TargetProfile) : List String :=
  classify_text_tags (build_target_text tp)

/-- score_hook from target_analysis.py.  The token-overlap set
intersection is modelled by deduplicating the hook tokens and counting
those present among the target-text tokens. -/
def score_hook (hook : String) (tp : TargetProfile) : Nat :=
  if hook == "" then 0
  else
    let hook_lower := pyLower hook
    let target_text := pyLower (build_target_text tp)
    let overlap :=
      ((tokenize hook).dedup.filter (fun t => (tokenize target_text).contains t)).length
    let base := min hook.length 80 / 20 + min overlap 3
    let expBonus := tp.top_experiences.foldl (fun acc exp =>
      let company := pyLower exp.company
      let title := pyLower exp.title
      acc + (if company != "" && containsSubStr company hook_lower then 3 else 0)
          + (if title != "" && containsSubStr title hook_lower then 2 else 0)) 0
    let eduBonus := tp.education.foldl (fun acc edu =>
      let school := pyLower edu.school
      acc + (if school != "" && containsSubStr school hook_lower then 3 else 0)) 0
    let locBonus :=
      if pyLower tp.location != "" &&
         containsSubStr (pyLower tp.location) hook_lower then 1 else 0
    base + expBonus + eduBonus + locBonus

/-- is_domain_fact from target_analysis.py. -/
def is_domain_fact (token : String) : Bool :=
  ["nyc", "analytics", "product", "computer vision", "finance",
   "community"].contains (normalize_key token)

/-- extract_company_from_fact from target_analysis.py. -/
def extract_company_from_fact (target_fact : String) : String :=
  if containsSubStr " at " target_fact then
    let company := pyStrip ⟨(afterFirstSub " at ".data target_fact.data).getD []⟩
    if is_likely_metadata_company company then "" else company
  else if endsWithStr " alum" target_fact then
    pyStrip (pyTake (target_fact.length - 5) target_fact)
  else if is_likely_metadata_company target_fact then "" else target_fact

/-! Anchors, facts and the shared dedup-and-sort machinery. -/

structure Anchor where
  type : String
  text : String
  score : Int
  evidence : String
deriving DecidableEq

structure Fact where
  type : String
  text : String
  score : Int
deriving DecidableEq

structure RankedPoint where
  point : String
  score : Int
deriving DecidableEq

/-- A bridge-plan entry: the per-variant contract consumed by the
generation prompt and the validator. -/
structure BridgeEntry where
  target_fact : String
  hook_text : String
  proof_point : String
  intent : String
  cta : String
  required_token : String
deriving DecidableEq

/-- First value stored under a key in an association list (insertion
order), the model of a Python dict lookup. -/
def findEntry {α : Type} (k : String) : List (String × α) → Option α
  | [] => none
  | p :: rest => if p.1 = k then some p.2 else findEntry k rest

/-- In-place update of the entry stored under k.  Keys in the
accumulator are pairwise distinct by construction (a dict), so mapping
over all entries with that key equals the single dict update. -/
def replaceEntry {α : Type} (k : String) (x : α) (acc : List (String × α)) :
    List (String × α) :=
  acc.map fun p => if p.1 = k then (k, x) else p

/-- One step of the dedup dict of anchors.py / bridge_plan.py: skip empty
keys; first insertion wins; a later entry replaces only with a strictly
greater score, keeping the original position. -/
def dedupStep {α : Type} (key : α → String) (score : α → Int)
    (acc : List (String × α)) (x : α) : List (String × α) :=
  let k := key x
  if k = "" then acc
  else
    match findEntry k acc with
    | none => acc ++ [(k, x)]
    | some y => if score y < score x then replaceEntry k x acc else acc

/-- Deduplicate by normalized key, keeping the highest score (ties keep
the first occurrence), values in insertion order of first occurrence. -/
def dedupByKey {α : Type} (key : α → String) (score : α → Int) (l : List α) :
    List α :=
  (l.foldl (dedupStep key score) []).map Prod.snd

/-- Stable insertion into a descending-by-score list: an element passes
only entries with a strictly smaller score, as in Python sorted with
reverse=True. -/
def insertDescBy {α : Type} (score : α → Int) (x : α) : List α → List α
  | [] => [x]
  | y :: rest =>
    if score y ≤ score x then x :: y :: rest else y :: insertDescBy score x rest

/-- Stable sort, descending by score. -/
def sortDescBy {α : Type} (score : α → Int) : List α → List α
  | [] => []
  | x :: rest => insertDescBy score x (sortDescBy score rest)

/-- Ascending insertion sort for strings (Python sorted on a list of
strings, codepoint-lexicographic). -/
def insertStrAsc (s : String) : List String → List String
  | [] => [s]
  | t :: rest => if s ≤ t then s :: t :: rest else t :: insertStrAsc s rest

def sortStrings : List String → List String
  | [] => []
  | s :: rest => insertStrAsc s (sortStrings rest)

/-! Constants from utils/constants.py.  VARIANT_LABELS is imported from
constants by anchors.py and bridge_plan.py; its value
["short", "direct", "warm"] is the variant list used literally
throughout the repository (main.py, prompting.py, the response schema
enum and CTA_BY_VARIANT keys). -/

def VARIANT_LABELS : List String := ["short", "direct", "warm"]

def CTA_BY_VARIANT : List (String × String) :=
  [("short", "Open to connect?"),
   ("direct", "Open to a quick chat?"),
   ("warm", "Worth connecting?")]

def DOMAIN_FACTS : List (String × String) :=
  [("cv", "computer vision"), ("analytics", "analytics"),
   ("product", "product"), ("finance", "finance"),
   ("community", "community")]

/-! anchors.py.  The single build_anchor_candidates function is split
into one definition per anchor source (school, company/role, location,
industry, domain, hook, derived); build_anchor_candidates concatenates
them in the source order and applies the dedup dict and the descending
sort, exactly as the Python function does. -/

def school_stop_words : List String :=
  ["university", "college", "school", "institute", "faculty"]

def company_stop_words : List String :=
  ["group", "inc", "corp", "ltd", "llc", "company", "technologies", "tech"]

def school_hint_words : List String :=
  ["university", "college", "school", "institute", "ecole", "supelec",
   "polytechnique", "alum"]

/-- school_tokens from anchors.py (also duplicated in bridge_plan.py). -/
def school_tokens (value : String) (school_stop : List String) : List String :=
  (pySplitWs (normalize_key value)).filter
    (fun t => t != "" && !school_stop.contains t)

/-- school_min_overlap from anchors.py / bridge_plan.py. -/
def school_min_overlap (a b : String) (school_stop : List String) : Nat :=
  let a_tokens := school_tokens a school_stop
  let b_tokens := school_tokens b school_stop
  if a_tokens.isEmpty || b_tokens.isEmpty then 1
  else if decide (a_tokens.length ≤ 1) || decide (b_tokens.length ≤ 1) then 1
  else 2

/-- clean_school_name from anchors.py. -/
def clean_school_name (value : String) : String :=
  let text := collapseWs value
  let text :=
    if containsSubStr "(" text then
      pyStrip ⟨(splitFirstSub "(".data text.data).getD text.data⟩
    else text
  if text == "" then pyStrip value else text

/-- The school names appended to target_schools from the headline: for
each sender school, require a school-hint word in the normalized
headline or the normalized cleaned school name as an explicit substring
of it, then entity-match the cleaned name against the headline at the
scaled overlap requirement. -/
def headline_school_matches (my_schools : List String) (target_headline : String) :
    List String :=
  if target_headline == "" then []
  else
    let nh := normalize_key target_headline
    let hint := scanHits (wordHitB school_hint_words) none nh.data
    my_schools.filterMap fun my_school =>
      let cleaned := clean_school_name my_school
      let ns := normalize_key cleaned
      let explicit := ns != "" && containsSubStr ns nh
      if !(hint || explicit) then none
      else if match_entity cleaned target_headline school_stop_words
              (school_min_overlap cleaned target_headline school_stop_words) then
        some cleaned
      else none

/-- School anchors: every (my_school, target_school) pair that
entity-matches at the scaled overlap requirement, score 12, or 16 with
the "in NYC" retitle when both locations are NYC. -/
def school_anchors (mp : MyProfile) (tp : TargetProfile) : List Anchor :=
  let target_schools :=
    tp.education.map (fun e => e.school) ++
    headline_school_matches mp.schools tp.headline
  (mp.schools.map fun my_school =>
    let cleaned := clean_school_name my_school
    target_schools.filterMap fun target_school =>
      if match_entity cleaned target_school school_stop_words
          (school_min_overlap cleaned target_school school_stop_words) then
        some (if is_nyc mp.location && is_nyc tp.location then
          { type := "school", text := target_school ++ " alum in NYC", score := 16,
            evidence := my_school ++ " + " ++ target_school ++ " + " ++ tp.location }
        else
          { type := "school", text := target_school ++ " alum", score := 12,
            evidence := my_school ++ " + " ++ target_school ++ " + " ++ tp.location })
      else none).flatten

/-- Company and role anchors from the target experiences, in source
order (per experience: company matches first, then the role anchor). -/
def experience_anchors (mp : MyProfile) (tp : TargetProfile) : List Anchor :=
  (tp.top_experiences.map fun exp =>
    let company := exp.company
    let title := compact_role_title exp.title
    (if company != "" && !is_likely_metadata_company company then
      mp.experiences.filterMap fun my_exp =>
        if match_entity my_exp company company_stop_words 1 then
          some { type := "company", text := "Both have experience at " ++ company,
                 score := 9, evidence := my_exp ++ " + " ++ company }
        else none
    else []) ++
    (if company != "" && title != "" && !is_likely_metadata_company company then
      [{ type := "role", text := title ++ " at " ++ company, score := 6,
         evidence := title ++ " + " ++ company }]
    else if title != "" then
      [{ type := "role", text := title, score := 5, evidence := title }]
    else [])).flatten

def location_anchors (mp : MyProfile) (tp : TargetProfile) : List Anchor :=
  if is_nyc mp.location && is_nyc tp.location then
    [{ type := "location", text := "Both based in NYC", score := 6,
       evidence := mp.location ++ " + " ++ tp.location }]
  else []

def TAG_LABELS : List (String × String) :=
  [("analytics", "analytics/data"), ("product", "product"),
   ("cv", "computer vision"), ("community", "community"),
   ("finance", "finance")]

/-- Industry anchors: one per tag shared by both profiles, iterated in
sorted order (the Python set intersection is modelled as a deduplicated
filtered list). -/
def industry_anchors (target_tags my_tags : List String) : List Anchor :=
  let shared_tags := sortStrings ((target_tags.filter
    (fun t => my_tags.contains t)).dedup)
  shared_tags.map fun tag =>
    let tag_label := (findEntry tag TAG_LABELS).getD tag
    { type := "industry", text := "Shared background in " ++ tag_label,
      score := 10, evidence := "shared_tags=" ++ tag }

/-- The low-priority domain fallbacks, kept even without explicit
overlap with the sender tags. -/
def domain_anchors (target_tags : List String) : List Anchor :=
  (if target_tags.contains "cv" then
    [{ type := "domain", text := "Shared focus on computer vision", score := 4,
       evidence := "target_tags=cv" }]
  else []) ++
  (if target_tags.contains "analytics" then
    [{ type := "domain", text := "Shared focus on analytics/data", score := 4,
       evidence := "target_tags=analytics" }]
  else []) ++
  (if target_tags.contains "product" then
    [{ type := "domain", text := "Shared product/analytics focus", score := 4,
       evidence := "target_tags=product" }]
  else [])

def hook_anchors (hooks : List String) (tp : TargetProfile) : List Anchor :=
  hooks.map fun hook =>
    { type := "hook", text := hook, score := 4 + (score_hook hook tp : Int),
      evidence := "extension hook" }

def derived_anchors (derived_hooks : List String) (tp : TargetProfile) : List Anchor :=
  derived_hooks.map fun hook =>
    { type := "derived", text := hook, score := 3 + (score_hook hook tp : Int),
      evidence := "derived hook" }

/-- The full candidate list before dedup, in source order. -/
def anchor_pool (mp : MyProfile) (tp : TargetProfile)
    (hooks derived_hooks target_tags : List String)
    (my_tags : List String) : List Anchor :=
  school_anchors mp tp ++ experience_anchors mp tp ++ location_anchors mp tp ++
  industry_anchors target_tags my_tags ++ domain_anchors target_tags ++
  hook_anchors hooks tp ++ derived_anchors derived_hooks tp

/-- build_anchor_candidates from anchors.py.  my_tags defaults to None
at the production call site; "my_tags or set()" resolves both None and
the empty set to the empty set. -/
def build_anchor_candidates (mp : MyProfile) (tp : TargetProfile)
    (hooks derived_hooks target_tags : List String)
    (my_tags : Option (List String)) : List Anchor :=
  sortDescBy (fun a => a.score)
    (dedupByKey (fun a => normalize_key a.text) (fun a => a.score)
      (anchor_pool mp tp hooks derived_hooks target_tags (my_tags.getD [])))

/-! select_anchor_plan from anchors.py. -/

/-- The cleaned anchor type: (anchor.get("type") or "").strip().lower(). -/
def anchor_type_key (a : Anchor) : String := pyLower (pyStrip a.type)

/-- pick_rotated from anchors.py. -/
def pick_rotated (candidates : List Anchor) (cycle : Nat) : Option Anchor :=
  if candidates.isEmpty then none
  else candidates[cycle % candidates.length]?

/-- The selector state: the plan built so far plus the used type and
text sets (modelled as lists, queried only through membership). -/
structure SelState where
  plan : List (String × Anchor)
  usedTypes : List String
  usedTexts : List String
deriving DecidableEq

/-- The selector invariant: the used-type and used-text lists mirror
the plan, chosen anchors come from the input, chosen types are pairwise
distinct, and the plan keys are distinct variant labels.  (The
used-text mirror relies on every anchor having a nonempty normalized
text, which holds in the verified diversity setting.) -/
def SelInv (anchors : List Anchor) (st : SelState) : Prop :=
  st.usedTypes = st.plan.map (fun p => anchor_type_key p.2) ∧
  st.usedTexts = st.plan.map (fun p => normalize_key p.2.text) ∧
  (∀ p ∈ st.plan, p.2 ∈ anchors) ∧
  (st.plan.map (fun p => anchor_type_key p.2)).Nodup ∧
  (st.plan.map Prod.fst).Nodup ∧
  (∀ p ∈ st.plan, p.1 ∈ VARIANT_LABELS)

/-- One seeding step: for a (variant, required type) pair, choose the
rotated pick among anchors of that type with a nonempty unused text. -/
def seedStep (anchors : List Anchor) (cycle : Nat) (st : SelState)
    (vr : String × String) : SelState :=
  let matchPool := anchors.filter fun a =>
    anchor_type_key a == vr.2 && normalize_key a.text != "" &&
    !st.usedTexts.contains (normalize_key a.text)
  match pick_rotated matchPool cycle with
  | none => st
  | some chosen =>
    { plan := st.plan ++ [(vr.1, chosen)]
      usedTypes := st.usedTypes ++ [anchor_type_key chosen]
      usedTexts := st.usedTexts ++ [normalize_key chosen.text] }

/-- The primary candidate pool of the main loop: anchors whose nonempty
normalized text is unused and whose cleaned type is unused. -/
def primaryPool (anchors : List Anchor) (st : SelState) : List Anchor :=
  anchors.filter fun a =>
    normalize_key a.text != "" &&
    !st.usedTexts.contains (normalize_key a.text) &&
    !st.usedTypes.contains (anchor_type_key a)

/-- The candidate chosen by one main-loop iteration: the sequential
fallbacks of the source (unused text and type; unused text; unused
type; any anchor), each with rotated selection. -/
def mainChoice (anchors : List Anchor) (cycle : Nat) (st : SelState) :
    Option Anchor :=
  match pick_rotated (primaryPool anchors st) cycle with
  | some a => some a
  | none =>
    match pick_rotated (anchors.filter fun a =>
        normalize_key a.text != "" &&
        !st.usedTexts.contains (normalize_key a.text)) cycle with
    | some a => some a
    | none =>
      match pick_rotated (anchors.filter fun a =>
          !st.usedTypes.contains (anchor_type_key a)) cycle with
      | some a => some a
      | none => pick_rotated anchors cycle

/-- One main-loop step: skip variants already planned, else record the
chosen anchor and mark its type and (nonempty) text as used. -/
def mainStep (anchors : List Anchor) (cycle : Nat) (st : SelState)
    (variant : String) : SelState :=
  if (st.plan.map Prod.fst).contains variant then st
  else
    match mainChoice anchors cycle st with
    | none => st
    | some c =>
      { plan := st.plan ++ [(variant, c)]
        usedTypes := st.usedTypes ++ [anchor_type_key c]
        usedTexts := if normalize_key c.text != "" then
            st.usedTexts ++ [normalize_key c.text]
          else st.usedTexts }

/-- select_anchor_plan from anchors.py: seed a variant per required
type (school, then industry, when present), then fill the remaining
variants with the main loop. -/
def select_anchor_plan (anchors : List Anchor) (cycle_index : Int) :
    List (String × Anchor) :=
  let cycle := (max 0 cycle_index).toNat
  let required_types :=
    (if anchors.any (fun a => anchor_type_key a == "school") then ["school"] else [])
    ++ (if anchors.any (fun a => anchor_type_key a == "industry") then ["industry"] else [])
  let seeded := (VARIANT_LABELS.take required_types.length).zip required_types
  let st := seeded.foldl (seedStep anchors cycle) ⟨[], [], []⟩
  (VARIANT_LABELS.foldl (mainStep anchors cycle) st).plan

/-- classify_anchor_type from anchors.py. -/
def classify_anchor_type (a : Anchor) : String :=
  let anchor_type := pyLower (pyStrip a.type)
  if ["school", "industry", "company", "role", "location", "domain",
      "hook", "derived"].contains anchor_type then anchor_type
  else "other"

/-! bridge_plan.py. -/

/-- The first experience with a nonempty compacted title and a company
that is not metadata, searched over all experiences. -/
def first_valid_pair (tp : TargetProfile) : Option TargetExperience :=
  tp.top_experiences.find? fun exp =>
    compact_role_title exp.title != "" && exp.company != "" &&
    !is_likely_metadata_company exp.company

/-- The role_company fact, when a valid pair exists. -/
def role_company_facts (tp : TargetProfile) : List Fact :=
  match first_valid_pair tp with
  | some exp =>
    [{ type := "role_company",
       text := compact_role_title exp.title ++ " at " ++ exp.company,
       score := 12 }]
  | none => []

def company_facts (tp : TargetProfile) : List Fact :=
  tp.top_experiences.filterMap fun exp =>
    let company := exp.company
    let title := compact_role_title exp.title
    if company != "" && !is_likely_metadata_company company then
      some { type := "company", text := company, score := 10 }
    else if title != "" && !is_likely_metadata_company title then
      some { type := "company", text := title, score := 9 }
    else none

def school_facts (tp : TargetProfile) : List Fact :=
  match tp.education with
  | [] => []
  | edu :: _ =>
    if edu.school != "" then
      [{ type := "school", text := edu.school ++ " alum", score := 9 }]
    else []

/-- The domain tags used by build_target_facts come from a profile
reduced to headline and about, as in the source. -/
def domain_facts_of (tp : TargetProfile) : List Fact :=
  let domain_tags := classify_target
    { name := "", headline := tp.headline, location := "", about := tp.about,
      top_experiences := [], education := [] }
  DOMAIN_FACTS.filterMap fun tp' =>
    if domain_tags.contains tp'.1 then
      some { type := "domain", text := tp'.2, score := 6 }
    else none

def headline_facts (tp : TargetProfile) : List Fact :=
  if tp.headline != "" then
    let text := if decide (tp.headline.length ≤ 60) then tp.headline
      else pyRstrip (pyTake 57 tp.headline) ++ "..."
    if text != "" then [{ type := "headline", text := text, score := 4 }] else []
  else []

def location_facts (tp : TargetProfile) : List Fact :=
  if tp.location != "" && is_nyc tp.location then
    [{ type := "location", text := "NYC", score := 3 }]
  else []

/-- The full fact list before dedup, in source order. -/
def fact_pool (tp : TargetProfile) : List Fact :=
  role_company_facts tp ++ company_facts tp ++ school_facts tp ++
  domain_facts_of tp ++ headline_facts tp ++ location_facts tp

/-- build_target_facts from bridge_plan.py: the descending-score fact
list for a target profile (the single Python function is split into one
definition per fact source, concatenated in source order). -/
def build_target_facts (tp : TargetProfile) : List Fact :=
  sortDescBy (fun f => f.score)
    (dedupByKey (fun f => normalize_key f.text) (fun f => f.score) (fact_pool tp))

/-- Python fact.text.replace(" alum", ""): remove every occurrence of
the five-character separator, scanning left to right. -/
def removeAlum : List Char → List Char
  | [] => []
  | c :: rest =>
    if " alum".data.isPrefixOf (c :: rest) then removeAlum (rest.drop 4)
    else c :: removeAlum rest
termination_by l => l.length
decreasing_by
  · simp [List.length_drop]; omega
  · simp

/-- boost_school_facts from bridge_plan.py: add 2 to a school fact when
any sender school entity-matches the fact text (with " alum" removed)
at the scaled overlap requirement. -/
def boost_school_facts (mp : MyProfile) (target_facts : List Fact) : List Fact :=
  let boosted := target_facts.map fun fact =>
    let score :=
      if fact.type == "school" && !mp.schools.isEmpty then
        let school_text := pyStrip ⟨removeAlum fact.text.data⟩
        if mp.schools.any (fun my_school =>
            match_entity my_school school_text school_stop_words
              (school_min_overlap my_school school_text school_stop_words)) then
          fact.score + 2
        else fact.score
      else fact.score
    { type := fact.type, text := fact.text, score := score }
  sortDescBy (fun f => f.score) boosted

/-- An ASCII apostrophe, used inside the intent template strings. -/
def apos : String := ⟨[Char.ofNat 39]⟩

/-- build_intent from bridge_plan.py. -/
def build_intent (tags : List String) (target_fact : String)
    (tp : TargetProfile) : String :=
  let company_or_role :=
    match tp.top_experiences.find? (fun exp =>
        exp.company != "" && !is_likely_metadata_company exp.company) with
    | some exp => exp.company
    | none => ""
  let company_or_role :=
    if company_or_role == "" then
      if !is_domain_fact target_fact then extract_company_from_fact target_fact
      else ""
    else company_or_role
  let company_or_role :=
    if company_or_role == "" then
      if tp.headline != "" && decide (tp.headline.length ≤ 60) then tp.headline
      else ""
    else company_or_role
  let company_or_role := if company_or_role == "" then "your work" else company_or_role
  let intent :=
    if tags.contains "cv" then
      "Curious what you" ++ apos ++ "re building in vision at " ++ company_or_role
    else if tags.contains "finance" then
      "Curious what you focus on in " ++ company_or_role
    else if tags.contains "product" then
      "Curious how you think about product/growth at " ++ company_or_role
    else if tags.contains "analytics" then
      "Curious how you apply analytics at " ++ company_or_role
    else if tags.contains "community" then
      "Curious about your outreach/community work at " ++ company_or_role
    else
      "Curious about your path at " ++ company_or_role
  if decide (80 < intent.length) then pyRstrip (pyTake 77 intent) ++ "..." else intent

/-- compact_hook_text from bridge_plan.py.  "target_fact or empty" is
target_fact itself, since the value is already a string. -/
def compact_hook_text (hook_text target_fact : String) : String :=
  let text := collapseWs hook_text
  if text == "" then target_fact
  else if decide (text.length ≤ 70) then text
  else if target_fact != "" && decide (target_fact.length ≤ 70) then target_fact
  else pyRstrip (pyTake 67 text) ++ "..."

/-- The candidate scan of choose_unique_hook_text: the first candidate
whose collapsed text is nonempty, has a fresh nonempty normalized key
and does not look like metadata. -/
def hookCandidateScan (used : List String) : List String → Option String
  | [] => none
  | c :: rest =>
    let text := collapseWs c
    if text == "" then hookCandidateScan used rest
    else
      let key := normalize_key text
      if key == "" then hookCandidateScan used rest
      else if used.contains key then hookCandidateScan used rest
      else if is_likely_metadata_company text then hookCandidateScan used rest
      else some text

/-- choose_unique_hook_text from bridge_plan.py. -/
def choose_unique_hook_text (primary_hook target_fact : String)
    (anchors : List Anchor) (boosted_facts : List Fact)
    (used_hook_keys : List String) : String :=
  let candidates := [primary_hook, target_fact] ++
    anchors.map (fun a => a.text) ++ boosted_facts.map (fun f => f.text)
  match hookCandidateScan used_hook_keys candidates with
  | some t => t
  | none =>
    let fallback :=
      collapseWs (if primary_hook != "" then primary_hook else target_fact)
    if fallback != "" && !is_likely_metadata_company fallback then fallback
    else "your work"

/-! proof_points.py. -/

/-- proof_point_strength_score from proof_points.py. -/
def proof_point_strength_score (point : String) : Int :=
  let p := pyLower point
  (if scanHits (wordHitB ["built", "shipped", "prototyped", "automated",
      "deployed", "launched", "owned", "delivered"]) none p.data then 6 else 0)
  + (if scanHits (wordHitB ["pipeline", "data-quality", "monitoring",
      "dashboard", "pandas", "sql", "opencv", "yolo", "camera", "radar"])
      none p.data then 3 else 0)
  + (if scanHits (wordHitB ["targeting", "internship", "internships"])
      none p.data then -8 else 0)
  + (if scanHits (wordHitB ["student", "dual degree", "based in", "core stack"])
      none p.data then -4 else 0)

/-- The Python sort key tuple (strength, -len, text); candidates are
sorted descending on it and the first taken, which is the maximum in
the lexicographic tuple order. -/
def strengthGt (a b : String) : Bool :=
  let sa := proof_point_strength_score a
  let sb := proof_point_strength_score b
  if sa ≠ sb then decide (sb < sa)
  else if a.length ≠ b.length then decide (a.length < b.length)
  else decide (b < a)

/-- pick_best from select_proof_point_for_variant: the maximum under the
(strength, -len, text) order, first occurrence among equals. -/
def pick_best (candidates : List String) : Option String :=
  match candidates with
  | [] => none
  | c :: rest => some (rest.foldl (fun best p => if strengthGt p best then p else best) c)

def cvPointMatch (s : String) : Bool :=
  ["yolo", "opencv", "vision", "camera", "radar", "tracking"].any
    (fun w => containsSubStr w s)

def communityPointMatch (s : String) : Bool :=
  ["outreach", "partnership", "club", "speaker", "events"].any
    (fun w => containsSubStr w s)

/-- (product management|pm\b|growth|decision-support|dashboard|roadmap):
every alternative is a plain substring except pm\b, which needs a word
boundary after the match (none before). -/
def productPointMatch (s : String) : Bool :=
  containsSubStr "product management" s
  || scanAny (fun suf => "pm".data.isPrefixOf suf && boundaryAfter (suf.drop 2)) s.data
  || ["growth", "decision-support", "dashboard", "roadmap"].any
      (fun w => containsSubStr w s)

def financePointMatch (s : String) : Bool :=
  ["accounting", "pricing", "performance", "forecast"].any
    (fun w => containsSubStr w s)

def analyticsPointMatch (s : String) : Bool :=
  ["pipeline", "data-quality", "pandas", "sql", "monitoring", "dashboard",
   "accounting", "analytics"].any (fun w => containsSubStr w s)

/-- select_proof_point_for_variant from proof_points.py. -/
def select_proof_point_for_variant (tags : List String) (anchor_type : String)
    (proof_points : List String) (ranked : List RankedPoint) : String :=
  let best_match := fun (pat : String → Bool) =>
    pick_best (proof_points.filter (fun p => pat (pyLower p)))
  let matched :=
    if tags.contains "cv" then best_match cvPointMatch
    else if anchor_type == "school" || tags.contains "community" then
      best_match communityPointMatch
    else if tags.contains "product" then best_match productPointMatch
    else if tags.contains "finance" then best_match financePointMatch
    else best_match analyticsPointMatch
  match matched with
  | some m => m
  | none =>
    let fromRanked :=
      if !ranked.isEmpty then
        pick_best ((ranked.map (fun item => item.point)).filter (fun p => p != ""))
      else none
    match fromRanked with
    | some r => r
    | none =>
      let strong := proof_points.filter (fun p => decide (2 ≤ proof_point_strength_score p))
      let picked := if !strong.isEmpty then pick_best strong else pick_best proof_points
      picked.getD ""

/-! build_bridge_plan from bridge_plan.py. -/

def emptyAnchor : Anchor := { type := "", text := "", score := 0, evidence := "" }

/-- One variant of the fact-selection loop of build_bridge_plan: pick
the first boosted fact with a fresh nonempty normalized key, falling
back to the top fact, then to an empty "other" fact. -/
def selFactStep (boosted : List Fact) (st : List (String × Fact) × List String)
    (variant : String) : List (String × Fact) × List String :=
  match boosted.find? (fun f =>
      normalize_key f.text != "" && !st.2.contains (normalize_key f.text)) with
  | some f => (st.1 ++ [(variant, f)], st.2 ++ [normalize_key f.text])
  | none =>
    match boosted with
    | g :: _ => (st.1 ++ [(variant, g)], st.2)
    | [] => (st.1 ++ [(variant, { type := "other", text := "", score := 0 })], st.2)

/-- The fact selected per variant: round-robin over the boosted list by
unused normalized key, falling back to the top fact, then to an empty
"other" fact. -/
def selected_facts_for (boosted : List Fact) : List (String × Fact) :=
  (VARIANT_LABELS.foldl (selFactStep boosted) ([], [])).1

/-- One variant of build_bridge_plan: the state carries the plan so far
and the used hook keys. -/
def bridgeStep (tp : TargetProfile) (target_tags : List String)
    (anchors : List Anchor) (anchor_plan : List (String × Anchor))
    (ranked_proof_points : List RankedPoint) (proof_points : List String)
    (classify_anchor_type_fn : Anchor → String)
    (boosted : List Fact) (high_signal_fact : Option Fact)
    (selected : List (String × Fact))
    (st : List (String × BridgeEntry) × List String) (variant : String) :
    List (String × BridgeEntry) × List String :=
  let anchor := (findEntry variant anchor_plan).getD emptyAnchor
  let anchor_type := classify_anchor_type_fn anchor
  let anchor_score := anchor.score
  let target_fact :=
    ((findEntry variant selected).getD { type := "other", text := "", score := 0 }).text
  let hook_text :=
    if (anchor_type == "domain" || anchor_type == "location") &&
       decide (anchor_score < 7) && high_signal_fact.isSome then
      if target_fact != "" then target_fact
      else (high_signal_fact.getD { type := "", text := "", score := 0 }).text
    else anchor.text
  let hook_text := compact_hook_text hook_text target_fact
  let hook_text :=
    choose_unique_hook_text hook_text target_fact anchors boosted st.2
  let hook_key := normalize_key hook_text
  let used := if hook_key != "" then st.2 ++ [hook_key] else st.2
  let proof_point := select_proof_point_for_variant target_tags anchor_type
    proof_points ranked_proof_points
  let intent := build_intent target_tags target_fact tp
  let cta := (findEntry variant CTA_BY_VARIANT).getD ""
  (st.1 ++ [(variant,
    { target_fact := target_fact, hook_text := hook_text,
      proof_point := proof_point, intent := intent, cta := cta,
      required_token := "" })], used)

/-- build_bridge_plan from bridge_plan.py.  The required token is
intentionally disabled in the source (always the empty string). -/
def build_bridge_plan (mp : MyProfile) (tp : TargetProfile)
    (target_tags : List String) (anchors : List Anchor)
    (anchor_plan : List (String × Anchor))
    (ranked_proof_points : List RankedPoint) (target_facts : List Fact)
    (proof_points : List String) (classify_anchor_type_fn : Anchor → String) :
    List (String × BridgeEntry) :=
  let boosted := boost_school_facts mp target_facts
  let high_signal_fact := boosted.find? fun f =>
    f.type == "role_company" || f.type == "company" || f.type == "school"
  let selected := selected_facts_for boosted
  (VARIANT_LABELS.foldl
    (bridgeStep tp target_tags anchors anchor_plan ranked_proof_points
      proof_points classify_anchor_type_fn boosted high_signal_fact selected)
    ([], [])).1

/-! validation.py. -/

/-- contains_normalized from validation.py. -/
def contains_normalized (haystack needle : String) : Bool :=
  let nh := normalize_key haystack
  let nn := normalize_key needle
  if nn == "" then true else containsSubStr nn nh

/-- has_token_overlap from validation.py. -/
def has_token_overlap (haystack snippet : String) (minimum_hits : Nat) : Bool :=
  let hay_tokens := pySplitWs (normalize_key haystack)
  let snippet_tokens := (pySplitWs (normalize_key snippet)).filter
    (fun t => decide (4 ≤ t.length))
  if snippet_tokens.isEmpty then true
  else
    let unique_tokens := snippet_tokens.dedup
    let hits := (unique_tokens.filter (fun t => hay_tokens.contains t)).length
    decide (min minimum_hits (max 1 (unique_tokens.length / 2)) ≤ hits)

/-- validate_variant_text from validation.py.  The checks run
independently and append their violation codes in source order; the
banned-phrase loop appends a single code for the first match, which is
equivalent to an existence test. -/
def validate_variant_text (text : String) (plan : BridgeEntry)
    (banlist : List String) : List String :=
  if text == "" then ["empty text"]
  else
    (if decide (300 < text.length) then ["length > 300"] else []) ++
    (if plan.target_fact != "" &&
        !(contains_normalized text plan.target_fact ||
          has_token_overlap text plan.target_fact 2) then
      ["missing target_fact"] else []) ++
    (if plan.hook_text != "" &&
        !(contains_normalized text plan.hook_text ||
          has_token_overlap text plan.hook_text 2) then
      ["missing hook_text"] else []) ++
    (if plan.proof_point != "" && !has_token_overlap text plan.proof_point 3 then
      ["missing proof_point"] else []) ++
    (if plan.cta != "" && !contains_normalized text plan.cta then
      ["missing CTA"] else []) ++
    (if plan.required_token != "" && !contains_normalized text plan.required_token then
      ["missing required_token"] else []) ++
    (if banlist.any (fun phrase =>
        phrase != "" && containsSubStr (pyLower phrase) (pyLower text)) then
      ["contains banned phrase"] else [])

/-! Concrete instances used by the counterexample and witness theorems
below. -/

/-- A target whose first experience entry has neither title nor company,
while the second has a valid pair. -/
def c2_target : TargetProfile :=
  { name := "", headline := "", location := "", about := "",
    top_experiences := [{ title := "", company := "" },
                        { title := "Engineer", company := "Acme" }],
    education := [] }

/-- A 71-character company name (not metadata). -/
def longCompany : String := ⟨List.replicate 71 'a'⟩

/-- A target whose only experience has a 71-character company and no
title, so the selected target fact is 71 characters long. -/
def c4_target : TargetProfile :=
  { name := "", headline := "", location := "", about := "",
    top_experiences := [{ title := "", company := longCompany }],
    education := [] }

/-- The bridge entry produced for the "short" variant when every input
is empty: the hook falls back to the default phrase. -/
def c4_empty_entry : BridgeEntry :=
  { target_fact := "", hook_text := "your work", proof_point := "",
    intent := "Curious about your path at your work", cta := "Open to connect?",
    required_token := "" }

/-- Anchors of three distinct types sharing the normalized text "x",
plus one more company anchor with text "y". -/
def c6_anchors : List Anchor :=
  [{ type := "company", text := "x", score := 9, evidence := "" },
   { type := "role", text := "x", score := 6, evidence := "" },
   { type := "location", text := "x", score := 6, evidence := "" },
   { type := "company", text := "y", score := 9, evidence := "" }]

/-- Sender with a single school, for the headline-school claim. -/
def c9_my : MyProfile :=
  { headline := "", location := "", schools := ["MIT"], experiences := [],
    proof_points := [], focus_areas := [], internship_goal := "",
    do_not_say := [] }

/-- Target with no education and the school name as headline; the
experience titles make the crafted hook score high. -/
def c9_target : TargetProfile :=
  { name := "", headline := "MIT", location := "a", about := "",
    top_experiences := [{ title := "alum", company := "z" },
                        { title := "alum", company := "z" }],
    education := [] }

/-- A 67-character hook normalizing to "mit alum", scoring 9 against
c9_target, so its anchor (score 13) replaces the score-12 school anchor
in the dedup dict. -/
def c9_hook : String :=
  ⟨'M' :: 'I' :: 'T' :: (List.replicate 60 '-' ++ ['A', 'l', 'u', 'm'])⟩

/-! ### Helper lemmas: substrings, runs, joins -/

theorem isPrefixOf_self (l : List Char) : l.isPrefixOf l = true := by
  induction l with
  | nil => rfl
  | cons c r ih => simp [List.isPrefixOf, ih]

/-- A suffix is always found by the substring scan. -/
theorem containsSub_append_right (n pre : List Char) :
    containsSub n (pre ++ n) = true := by
  induction pre with
  | nil =>
    cases n with
    | nil => rfl
    | cons c r => simp [containsSub, isPrefixOf_self]
  | cons c rest ih => simp [containsSub, ih]

theorem joinSp_cons_cons (r : List Char) (r2 : List Char) (rt : List (List Char)) :
    joinSp (r :: r2 :: rt) = r ++ ' ' :: joinSp (r2 :: rt) := rfl

theorem consRun_ne_nil (c : Char) (rs : List (List Char)) : consRun c rs ≠ [] := by
  cases rs <;> simp [consRun]

theorem runsBy_cons (p : Char → Bool) (c : Char) (rest : List Char) :
    runsBy p (c :: rest) =
      if p c then
        if headSat p rest then consRun c (runsBy p rest)
        else [c] :: runsBy p rest
      else runsBy p rest := rfl

/-- Every run produced by runsBy is nonempty. -/
theorem runsBy_mem_ne_nil (p : Char → Bool) (l : List Char) :
    ∀ r ∈ runsBy p l, r ≠ [] := by
  induction l with
  | nil => simp [runsBy]
  | cons c rest ih =>
    intro r hr
    rw [runsBy_cons] at hr
    by_cases hp : p c
    · simp only [hp, if_true] at hr
      by_cases hh : headSat p rest
      · simp only [hh, if_true] at hr
        rcases hrs : runsBy p rest with _ | ⟨r1, rt⟩ <;> rw [hrs] at hr
        · simp [consRun] at hr
          subst hr; simp
        · simp only [consRun] at hr
          rcases List.mem_cons.mp hr with h | h
          · subst h; simp
          · exact ih r (hrs ▸ List.mem_cons_of_mem _ h)
      · simp only [hh, if_false] at hr
        rcases List.mem_cons.mp hr with h | h
        · subst h; simp
        · exact ih r h
    · simp only [hp, if_false] at hr
      exact ih r hr

/-- If the head satisfies p, the run list is nonempty. -/
theorem runsBy_ne_nil_of_head (p : Char → Bool) (d : Char) (t : List Char)
    (hp : p d = true) : runsBy p (d :: t) ≠ [] := by
  rw [runsBy_cons]
  simp only [hp, if_true]
  by_cases hh : headSat p t
  · simp only [hh, if_true]
    exact consRun_ne_nil _ _
  · simp [hh]

/-- A character satisfying p forces at least one run. -/
theorem runsBy_ne_nil_of_mem (p : Char → Bool) (l : List Char) (c : Char)
    (hc : c ∈ l) (hp : p c = true) : runsBy p l ≠ [] := by
  induction l with
  | nil => simp at hc
  | cons d rest ih =>
    by_cases hd : p d
    · exact runsBy_ne_nil_of_head p d rest hd
    · rw [runsBy_cons]
      simp only [hd, if_false]
      rcases List.mem_cons.mp hc with h | h
      · subst h; rw [hp] at hd; simp at hd
      · exact ih h

theorem joinSp_ne_nil (rs : List (List Char)) (h : rs ≠ [])
    (hne : ∀ r ∈ rs, r ≠ []) : joinSp rs ≠ [] := by
  rcases rs with _ | ⟨r, rt⟩
  · simp at h
  · rcases rt with _ | ⟨r2, rt'⟩
    · exact hne r (List.mem_cons_self _ _)
    · rw [joinSp_cons_cons]
      intro hcontra
      rcases List.append_eq_nil.mp hcontra with ⟨_, h2⟩
      simp at h2

/-- A string whose data contains a character that stays alphanumeric
after lowering has a nonempty normalized key. -/
theorem normalize_key_ne_empty (s : String) (c : Char) (hc : c ∈ s.data)
    (h : isKeyChar (Char.toLower c) = true) : normalize_key s ≠ "" := by
  intro hcontra
  have hdata : joinSp (runsBy isKeyChar (s.data.map Char.toLower)) = [] := by
    have := congrArg String.data hcontra
    simpa [normalize_key] using this
  have hmem : Char.toLower c ∈ s.data.map Char.toLower := List.mem_map_of_mem _ hc
  exact joinSp_ne_nil _ (runsBy_ne_nil_of_mem _ _ _ hmem h)
    (runsBy_mem_ne_nil _ _) hdata

/-- The joined runs never exceed the original length (fuel recursion on
the list length). -/
theorem joinSp_runsBy_length_le_aux (p : Char → Bool) :
    ∀ (n : Nat) (l : List Char), l.length ≤ n →
      (joinSp (runsBy p l)).length ≤ l.length := by
  intro n
  induction n with
  | zero =>
    intro l hl
    have : l = [] := List.length_eq_zero.mp (Nat.le_zero.mp hl)
    subst this
    simp [runsBy, joinSp]
  | succ n ih =>
    intro l hl
    rcases l with _ | ⟨c, rest⟩
    · simp [runsBy, joinSp]
    · have hrest : rest.length ≤ n := by simpa using hl
      rw [runsBy_cons]
      by_cases hp : p c
      · simp only [hp, if_true]
        by_cases hh : headSat p rest
        · rw [if_pos hh]
          rcases hrs : runsBy p rest with _ | ⟨r1, rt⟩
          · rcases rest with _ | ⟨d, rest'⟩
            · simp [headSat] at hh
            · exact absurd hrs (runsBy_ne_nil_of_head p d rest' (by simpa [headSat] using hh))
          · have hjoin : joinSp ((c :: r1) :: rt) = c :: joinSp (r1 :: rt) := by
              rcases rt with _ | ⟨r2, rt'⟩
              · rfl
              · simp [joinSp_cons_cons]
            have hle := ih rest hrest
            rw [hrs] at hle
            simp only [consRun, hjoin]
            simpa using Nat.succ_le_succ hle
        · rw [if_neg hh]
          rcases hrs : runsBy p rest with _ | ⟨r1, rt⟩
          · simp [hrs, joinSp]
          · rcases rest with _ | ⟨d, rest'⟩
            · simp [runsBy] at hrs
            · have hd : p d = false := by
                rcases hpd : p d
                · rfl
                · rw [headSat, hpd] at hh; simp at hh
              have hrs' : runsBy p (d :: rest') = runsBy p rest' := by
                rw [runsBy_cons]
                simp [hd]
              have hrest' : rest'.length ≤ n := by
                simpa using Nat.le_of_succ_le hrest
              have hle := ih rest' hrest'
              rw [← hrs', hrs] at hle
              rw [joinSp_cons_cons]
              simp only [List.length_append, List.length_cons, List.length_nil]
                at hle ⊢
              omega
      · simp only [hp, if_false]
        exact Nat.le_trans (ih rest hrest) (Nat.le_succ_of_le (Nat.le_refl _))

theorem collapseWs_length_le (s : String) : (collapseWs s).length ≤ s.length :=
  joinSp_runsBy_length_le_aux (fun c => !isPyWs c) s.data.length s.data (Nat.le_refl _)

theorem length_dropWhile_le' (p : Char → Bool) (l : List Char) :
    (l.dropWhile p).length ≤ l.length := by
  induction l with
  | nil => simp
  | cons c rest ih =>
    rw [List.dropWhile]
    by_cases hp : p c
    · simp only [hp]
      exact Nat.le_succ_of_le ih
    · simp [hp]

theorem pyRstrip_length_le (s : String) : (pyRstrip s).length ≤ s.length := by
  simp only [pyRstrip, String.length]
  calc ((s.data.reverse.dropWhile isPyWs).reverse).length
      = (s.data.reverse.dropWhile isPyWs).length := List.length_reverse _
    _ ≤ s.data.reverse.length := length_dropWhile_le' _ _
    _ = s.data.length := List.length_reverse _

theorem pyTake_length_le (n : Nat) (s : String) : (pyTake n s).length ≤ n := by
  simp only [pyTake, String.length]
  exact Nat.le_trans (Nat.le_of_eq (List.length_take _ _)) (Nat.min_le_left _ _)

theorem string_append_length (a b : String) : (a ++ b).length = a.length + b.length := by
  show (a.data ++ b.data).length = a.data.length + b.data.length
  exact List.length_append _ _

/-! ### Helper lemmas: the dedup dictionary -/

theorem findEntry_nil {α : Type} (k : String) : findEntry (α := α) k [] = none := rfl

theorem findEntry_cons {α : Type} (k : String) (p : String × α)
    (rest : List (String × α)) :
    findEntry k (p :: rest) = if p.1 = k then some p.2 else findEntry k rest := rfl

theorem findEntry_pair_mem {α : Type} (k : String) (l : List (String × α)) (z : α)
    (h : findEntry k l = some z) : (k, z) ∈ l := by
  induction l with
  | nil => simp [findEntry_nil] at h
  | cons p rest ih =>
    rw [findEntry_cons] at h
    by_cases hp : p.1 = k
    · simp only [hp, if_true, Option.some_inj] at h
      subst h
      have : (k, p.2) = p := by rw [← hp]
      rw [this]
      exact List.mem_cons_self _ _
    · simp only [hp, if_false] at h
      exact List.mem_cons_of_mem _ (ih h)

theorem findEntry_append_some {α : Type} (k : String) (l1 l2 : List (String × α))
    (z : α) (h : findEntry k l1 = some z) :
    findEntry k (l1 ++ l2) = some z := by
  induction l1 with
  | nil => simp [findEntry_nil] at h
  | cons p rest ih =>
    rw [findEntry_cons] at h
    rw [List.cons_append, findEntry_cons]
    by_cases hp : p.1 = k
    · simpa [hp] using h
    · simp only [hp, if_false] at h ⊢
      exact ih h

theorem findEntry_append_none {α : Type} (k : String) (l1 l2 : List (String × α))
    (h : findEntry k l1 = none) :
    findEntry k (l1 ++ l2) = findEntry k l2 := by
  induction l1 with
  | nil => simp
  | cons p rest ih =>
    rw [findEntry_cons] at h
    rw [List.cons_append, findEntry_cons]
    by_cases hp : p.1 = k
    · simp [hp] at h
    · simp only [hp, if_false] at h ⊢
      exact ih h

theorem findEntry_replace_ne {α : Type} (k k2 : String) (x : α)
    (l : List (String × α)) (h : k ≠ k2) :
    findEntry k (replaceEntry k2 x l) = findEntry k l := by
  induction l with
  | nil => simp [findEntry_nil, replaceEntry]
  | cons p rest ih =>
    simp only [replaceEntry, List.map_cons]
    by_cases hp : p.1 = k2
    · simp only [hp, if_true]
      rw [findEntry_cons, findEntry_cons]
      have hne : ¬ (k2 = k) := fun hc => h hc.symm
      simp only [hne, if_false, hp]
      simpa [replaceEntry] using ih
    · simp only [hp, if_false]
      rw [findEntry_cons, findEntry_cons]
      by_cases hk : p.1 = k
      · simp [hk]
      · simp only [hk, if_false]
        simpa [replaceEntry] using ih

theorem findEntry_replace_found {α : Type} (k : String) (x z : α)
    (l : List (String × α)) (h : findEntry k l = some z) :
    findEntry k (replaceEntry k x l) = some x := by
  induction l with
  | nil => simp [findEntry_nil] at h
  | cons p rest ih =>
    rw [findEntry_cons] at h
    simp only [replaceEntry, List.map_cons]
    by_cases hp : p.1 = k
    · simp only [hp, if_true]
      rw [findEntry_cons]
      simp
    · simp only [hp, if_false] at h
      simp only [hp, if_false]
      rw [findEntry_cons]
      simp only [hp, if_false]
      simpa [replaceEntry] using ih h

/-- The dedup dict invariant: every stored value has its own key. -/
theorem dedupStep_keys {α : Type} (key : α → String) (score : α → Int)
    (acc : List (String × α)) (x : α)
    (h : ∀ p ∈ acc, key p.2 = p.1) :
    ∀ p ∈ dedupStep key score acc x, key p.2 = p.1 := by
  intro p hp
  simp only [dedupStep] at hp
  by_cases hk : key x = ""
  · simp only [hk, if_true] at hp
    exact h p hp
  · simp only [hk, if_false] at hp
    rcases hfind : findEntry (key x) acc with _ | y <;> rw [hfind] at hp
    · rcases List.mem_append.mp hp with h1 | h1
      · exact h p h1
      · simp at h1
        subst h1
        rfl
    · by_cases hs : score y < score x
      · simp only [hs, if_true, replaceEntry, List.mem_map] at hp
        rcases hp with ⟨q, hq, hpq⟩
        by_cases hq1 : q.1 = key x
        · simp only [hq1, if_true] at hpq
          subst hpq
          rfl
        · simp only [hq1, if_false] at hpq
          subst hpq
          exact h q hq
      · simp only [hs, if_false] at hp
        exact h p hp

theorem dedupFold_keys {α : Type} (key : α → String) (score : α → Int) :
    ∀ (l : List α) (acc : List (String × α)),
      (∀ p ∈ acc, key p.2 = p.1) →
      ∀ p ∈ l.foldl (dedupStep key score) acc, key p.2 = p.1 := by
  intro l
  induction l with
  | nil => intro acc h; simpa using h
  | cons x rest ih =>
    intro acc h
    exact ih _ (dedupStep_keys key score acc x h)

/-- A stored entry with an at-least score survives every later step. -/
theorem dedupStep_preserves_found {α : Type} (key : α → String) (score : α → Int)
    (acc : List (String × α)) (x : α) (k : String) (s : Int)
    (h : ∃ z, findEntry k acc = some z ∧ s ≤ score z) :
    ∃ z, findEntry k (dedupStep key score acc x) = some z ∧ s ≤ score z := by
  rcases h with ⟨z, hz, hs⟩
  simp only [dedupStep]
  by_cases hk : key x = ""
  · simp only [hk, if_true]
    exact ⟨z, hz, hs⟩
  · simp only [hk, if_false]
    rcases hfind : findEntry (key x) acc with _ | y
    · exact ⟨z, findEntry_append_some _ _ _ _ hz, hs⟩
    · by_cases hscore : score y < score x
      · simp only [hscore, if_true]
        by_cases hkk : k = key x
        · subst hkk
          rw [hz] at hfind
          cases hfind
          exact ⟨x, findEntry_replace_found _ _ _ _ hz,
            Int.le_trans hs (Int.le_of_lt hscore)⟩
        · exact ⟨z, (findEntry_replace_ne _ _ _ _ hkk).trans hz, hs⟩
      · simp only [hscore, if_false]
        exact ⟨z, hz, hs⟩

/-- Processing x itself stores an entry with at least its score under
its key, when that key is nonempty. -/
theorem dedupStep_establishes {α : Type} (key : α → String) (score : α → Int)
    (acc : List (String × α)) (x : α) (hk : key x ≠ "") :
    ∃ z, findEntry (key x) (dedupStep key score acc x) = some z ∧
      score x ≤ score z := by
  simp only [dedupStep]
  simp only [hk, if_false]
  rcases hfind : findEntry (key x) acc with _ | y
  · refine ⟨x, ?_, Int.le_refl _⟩
    rw [findEntry_append_none _ _ _ hfind, findEntry_cons]
    simp
  · by_cases hscore : score y < score x
    · simp only [hscore, if_true]
      exact ⟨x, findEntry_replace_found _ _ _ _ hfind, Int.le_refl _⟩
    · simp only [hscore, if_false]
      exact ⟨y, hfind, Int.not_lt.mp hscore⟩

theorem dedupFold_preserves_found {α : Type} (key : α → String) (score : α → Int)
    (k : String) (s : Int) :
    ∀ (l : List α) (acc : List (String × α)),
      (∃ z, findEntry k acc = some z ∧ s ≤ score z) →
      ∃ z, findEntry k (l.foldl (dedupStep key score) acc) = some z ∧ s ≤ score z := by
  intro l
  induction l with
  | nil => intro acc h; simpa using h
  | cons x rest ih =>
    intro acc h
    exact ih _ (dedupStep_preserves_found key score acc x k s h)

theorem dedupFold_establishes {α : Type} (key : α → String) (score : α → Int)
    (x : α) (hk : key x ≠ "") :
    ∀ (l : List α) (acc : List (String × α)), x ∈ l →
      ∃ z, findEntry (key x) (l.foldl (dedupStep key score) acc) = some z ∧
        score x ≤ score z := by
  intro l
  induction l with
  | nil => intro acc h; simp at h
  | cons y rest ih =>
    intro acc hx
    rcases List.mem_cons.mp hx with h | h
    · subst h
      exact dedupFold_preserves_found key score (key x) (score x) rest _
        (dedupStep_establishes key score acc x hk)
    · exact ih _ h

/-- Every element of the pool with a nonempty key leaves a same-key
entry of at least its score in the dedup output. -/
theorem exists_dedupByKey {α : Type} (key : α → String) (score : α → Int)
    (l : List α) (x : α) (hx : x ∈ l) (hk : key x ≠ "") :
    ∃ a ∈ dedupByKey key score l, key a = key x ∧ score x ≤ score a := by
  rcases dedupFold_establishes key score x hk l [] hx with ⟨z, hz, hs⟩
  have hpair := findEntry_pair_mem _ _ _ hz
  have hkey := dedupFold_keys key score l [] (by simp) _ hpair
  refine ⟨z, ?_, hkey, hs⟩
  simpa [dedupByKey] using List.mem_map_of_mem Prod.snd hpair

theorem dedupStep_snd_sub {α : Type} (key : α → String) (score : α → Int)
    (acc : List (String × α)) (x a : α)
    (h : a ∈ (dedupStep key score acc x).map Prod.snd) :
    a ∈ acc.map Prod.snd ∨ a = x := by
  simp only [dedupStep] at h
  by_cases hk : key x = ""
  · simp only [hk, if_true] at h
    exact Or.inl h
  · simp only [hk, if_false] at h
    rcases hfind : findEntry (key x) acc with _ | y <;> rw [hfind] at h
    · simp only [List.map_append, List.map_cons, List.map_nil] at h
      rcases List.mem_append.mp h with h1 | h1
      · exact Or.inl h1
      · simp at h1
        exact Or.inr h1
    · by_cases hs : score y < score x
      · simp only [hs, if_true, replaceEntry, List.map_map, List.mem_map] at h
        rcases h with ⟨q, hq, hpq⟩
        by_cases hq1 : q.1 = key x
        · simp only [Function.comp, hq1, if_true] at hpq
          exact Or.inr hpq.symm
        · simp only [Function.comp, hq1, if_false] at hpq
          exact Or.inl (hpq ▸ List.mem_map_of_mem Prod.snd hq)
      · simp only [hs, if_false] at h
        exact Or.inl h

theorem dedupFold_snd_sub {α : Type} (key : α → String) (score : α → Int) (a : α) :
    ∀ (l : List α) (acc : List (String × α)),
      a ∈ (l.foldl (dedupStep key score) acc).map Prod.snd →
      a ∈ acc.map Prod.snd ∨ a ∈ l := by
  intro l
  induction l with
  | nil => intro acc h; exact Or.inl h
  | cons x rest ih =>
    intro acc h
    rcases ih _ h with h1 | h1
    · rcases dedupStep_snd_sub key score acc x a h1 with h2 | h2
      · exact Or.inl h2
      · exact Or.inr (h2 ▸ List.mem_cons_self _ _)
    · exact Or.inr (List.mem_cons_of_mem _ h1)

/-- The dedup output only contains pool elements. -/
theorem mem_dedupByKey {α : Type} (key : α → String) (score : α → Int)
    (l : List α) (a : α) (h : a ∈ dedupByKey key score l) : a ∈ l := by
  rcases dedupFold_snd_sub key score a l [] (by simpa [dedupByKey] using h) with h1 | h1
  · simp at h1
  · exact h1

/-! ### Helper lemmas: the stable descending sort -/

theorem mem_insertDescBy {α : Type} (score : α → Int) (x a : α) (l : List α) :
    a ∈ insertDescBy score x l ↔ a = x ∨ a ∈ l := by
  induction l with
  | nil => simp [insertDescBy]
  | cons y rest ih =>
    rw [insertDescBy]
    by_cases hs : score y ≤ score x
    · simp [hs]
    · simp only [hs, if_false, List.mem_cons, ih]
      tauto

theorem mem_sortDescBy {α : Type} (score : α → Int) (a : α) (l : List α) :
    a ∈ sortDescBy score l ↔ a ∈ l := by
  induction l with
  | nil => simp [sortDescBy]
  | cons x rest ih =>
    rw [sortDescBy, mem_insertDescBy]
    simp [ih]

/-! ### Helper lemmas: pick_rotated -/

theorem pick_rotated_some {candidates : List Anchor} {cycle : Nat}
    (h : candidates ≠ []) :
    ∃ a, pick_rotated candidates cycle = some a ∧ a ∈ candidates := by
  have hlen : 0 < candidates.length := List.length_pos.mpr h
  have hmod : cycle % candidates.length < candidates.length := Nat.mod_lt _ hlen
  refine ⟨candidates[cycle % candidates.length], ?_, List.getElem_mem _⟩
  simp [pick_rotated, List.isEmpty_iff, h, List.getElem?_eq_getElem hmod]

theorem pick_rotated_nil (cycle : Nat) : pick_rotated [] cycle = none := rfl

theorem pick_rotated_mem {candidates : List Anchor} {cycle : Nat} {a : Anchor}
    (h : pick_rotated candidates cycle = some a) : a ∈ candidates := by
  rw [pick_rotated] at h
  by_cases hc : candidates.isEmpty
  · simp [hc] at h
  · simp only [hc, if_false] at h
    exact List.getElem?_mem h

/-! ### Anchor pool section lemmas: which types and scores each source
can produce. -/

theorem mem_school_anchors {mp : MyProfile} {tp : TargetProfile} {a : Anchor}
    (h : a ∈ school_anchors mp tp) :
    a.type = "school" ∧ (a.score = 12 ∨ a.score = 16) := by
  simp only [school_anchors, List.mem_flatten, List.mem_map] at h
  rcases h with ⟨inner, ⟨ms, _, hinner⟩, hmem⟩
  subst hinner
  simp only [List.mem_filterMap] at hmem
  rcases hmem with ⟨ts, _, hts⟩
  split at hts
  · split at hts <;> cases hts <;> simp
  · cases hts

theorem mem_experience_anchors {mp : MyProfile} {tp : TargetProfile} {a : Anchor}
    (h : a ∈ experience_anchors mp tp) :
    (a.type = "company" ∧ a.score = 9) ∨
    (a.type = "role" ∧ (a.score = 6 ∨ a.score = 5)) := by
  simp only [experience_anchors, List.mem_flatten, List.mem_map] at h
  rcases h with ⟨inner, ⟨exp, _, hinner⟩, hmem⟩
  subst hinner
  rcases List.mem_append.mp hmem with h1 | h1
  · split at h1
    · simp only [List.mem_filterMap] at h1
      rcases h1 with ⟨me, _, hme⟩
      split at hme <;> cases hme
      left; simp
    · cases h1
  · split at h1
    · simp at h1
      subst h1
      right; simp
    · split at h1
      · simp at h1
        subst h1
        right; simp
      · cases h1

theorem mem_location_anchors {mp : MyProfile} {tp : TargetProfile} {a : Anchor}
    (h : a ∈ location_anchors mp tp) : a.type = "location" ∧ a.score = 6 := by
  rw [location_anchors] at h
  split at h
  · simp at h
    subst h; simp
  · cases h

theorem mem_industry_anchors {target_tags my_tags : List String} {a : Anchor}
    (h : a ∈ industry_anchors target_tags my_tags) :
    a.type = "industry" ∧ a.score = 10 := by
  simp only [industry_anchors, List.mem_map] at h
  rcases h with ⟨tag, _, htag⟩
  subst htag
  simp

theorem industry_anchors_no_my_tags (target_tags : List String) :
    industry_anchors target_tags [] = [] := by
  have hfilter : target_tags.filter (fun t => ([] : List String).contains t) = [] := by
    simp
  simp [industry_anchors, hfilter, sortStrings]

theorem mem_domain_anchors {target_tags : List String} {a : Anchor}
    (h : a ∈ domain_anchors target_tags) :
    a.type = "domain" ∧ a.score = 4 ∧
    ((a.text = "Shared focus on computer vision" ∧ target_tags.contains "cv" = true) ∨
     (a.text = "Shared focus on analytics/data" ∧ target_tags.contains "analytics" = true) ∨
     (a.text = "Shared product/analytics focus" ∧ target_tags.contains "product" = true)) := by
  rw [domain_anchors] at h
  rcases List.mem_append.mp h with h1 | h1
  · rcases List.mem_append.mp h1 with h2 | h2
    · split at h2
      · simp at h2
        subst h2
        refine ⟨rfl, rfl, Or.inl ⟨rfl, by assumption⟩⟩
      · cases h2
    · split at h2
      · simp at h2
        subst h2
        refine ⟨rfl, rfl, Or.inr (Or.inl ⟨rfl, by assumption⟩)⟩
      · cases h2
  · split at h1
    · simp at h1
      subst h1
      refine ⟨rfl, rfl, Or.inr (Or.inr ⟨rfl, by assumption⟩)⟩
    · cases h1

theorem mem_hook_anchors {hooks : List String} {tp : TargetProfile} {a : Anchor}
    (h : a ∈ hook_anchors hooks tp) : a.type = "hook" := by
  simp only [hook_anchors, List.mem_map] at h
  rcases h with ⟨hk, _, hhk⟩
  subst hhk
  rfl

theorem mem_derived_anchors {derived_hooks : List String} {tp : TargetProfile}
    {a : Anchor} (h : a ∈ derived_anchors derived_hooks tp) : a.type = "derived" := by
  simp only [derived_anchors, List.mem_map] at h
  rcases h with ⟨hk, _, hhk⟩
  subst hhk
  rfl

/-- Every candidate returned by build_anchor_candidates is a pool
element. -/
theorem mem_build_anchor_candidates {mp : MyProfile} {tp : TargetProfile}
    {hooks derived_hooks target_tags : List String}
    {my_tags : Option (List String)} {a : Anchor}
    (h : a ∈ build_anchor_candidates mp tp hooks derived_hooks target_tags my_tags) :
    a ∈ anchor_pool mp tp hooks derived_hooks target_tags (my_tags.getD []) := by
  rw [build_anchor_candidates, mem_sortDescBy] at h
  exact mem_dedupByKey _ _ _ _ h

/-- Elements of the pool with nonempty normalized text leave a same-key
entry of at least their score in the final candidate list. -/
theorem exists_build_anchor_candidates {mp : MyProfile} {tp : TargetProfile}
    {hooks derived_hooks target_tags : List String}
    {my_tags : Option (List String)} {x : Anchor}
    (hx : x ∈ anchor_pool mp tp hooks derived_hooks target_tags (my_tags.getD []))
    (hk : normalize_key x.text ≠ "") :
    ∃ a ∈ build_anchor_candidates mp tp hooks derived_hooks target_tags my_tags,
      normalize_key a.text = normalize_key x.text ∧ x.score ≤ a.score := by
  rcases exists_dedupByKey (fun a => normalize_key a.text) (fun a => a.score) _ x hx hk
    with ⟨a, ha, hkey, hscore⟩
  exact ⟨a, (mem_sortDescBy _ _ _).mpr ha, hkey, hscore⟩

/-! ### Fact pool section lemmas -/

theorem mem_role_company_facts {tp : TargetProfile} {f : Fact}
    (h : f ∈ role_company_facts tp) :
    f.type = "role_company" ∧ f.score = 12 ∧
    ∃ exp, first_valid_pair tp = some exp ∧
      f.text = compact_role_title exp.title ++ " at " ++ exp.company := by
  rw [role_company_facts] at h
  rcases hfind : first_valid_pair tp with _ | exp <;> rw [hfind] at h
  · cases h
  · simp at h
    subst h
    exact ⟨rfl, rfl, exp, rfl, rfl⟩

theorem mem_company_facts {tp : TargetProfile} {f : Fact}
    (h : f ∈ company_facts tp) : f.type = "company" ∧ f.score ≤ 10 := by
  simp only [company_facts, List.mem_filterMap] at h
  rcases h with ⟨exp, _, hexp⟩
  split at hexp
  · cases hexp; simp
  · split at hexp
    · cases hexp
      refine ⟨rfl, by norm_num⟩
    · cases hexp

theorem mem_school_facts {tp : TargetProfile} {f : Fact}
    (h : f ∈ school_facts tp) : f.type = "school" ∧ f.score = 9 := by
  rw [school_facts] at h
  split at h
  · cases h
  · split at h
    · have := List.mem_singleton.mp h
      subst this; simp
    · cases h

theorem mem_domain_facts_of {tp : TargetProfile} {f : Fact}
    (h : f ∈ domain_facts_of tp) : f.type = "domain" ∧ f.score = 6 := by
  simp only [domain_facts_of, List.mem_filterMap] at h
  rcases h with ⟨p, _, hp⟩
  split at hp
  · cases hp; simp
  · cases hp

theorem mem_headline_facts {tp : TargetProfile} {f : Fact}
    (h : f ∈ headline_facts tp) : f.type = "headline" ∧ f.score = 4 := by
  rw [headline_facts] at h
  split at h
  · split at h <;> simp only [] at h <;> split at h <;>
      first
      | (have hsg := List.mem_singleton.mp h; subst hsg; exact ⟨rfl, rfl⟩)
      | cases h
  · cases h

theorem mem_location_facts {tp : TargetProfile} {f : Fact}
    (h : f ∈ location_facts tp) : f.type = "location" ∧ f.score = 3 := by
  rw [location_facts] at h
  split at h
  · simp at h
    subst h; simp
  · cases h

theorem mem_build_target_facts {tp : TargetProfile} {f : Fact}
    (h : f ∈ build_target_facts tp) : f ∈ fact_pool tp := by
  rw [build_target_facts, mem_sortDescBy] at h
  exact mem_dedupByKey _ _ _ _ h

theorem exists_build_target_facts {tp : TargetProfile} {x : Fact}
    (hx : x ∈ fact_pool tp) (hk : normalize_key x.text ≠ "") :
    ∃ a ∈ build_target_facts tp,
      normalize_key a.text = normalize_key x.text ∧ x.score ≤ a.score := by
  rcases exists_dedupByKey (fun f => normalize_key f.text) (fun f => f.score) _ x hx hk
    with ⟨a, ha, hkey, hscore⟩
  exact ⟨a, (mem_sortDescBy _ _ _).mpr ha, hkey, hscore⟩

/-- Any string containing " at " has a nonempty normalized key. -/
theorem normalize_key_at_ne_empty (a b : String) :
    normalize_key (a ++ " at " ++ b) ≠ "" := by
  apply normalize_key_ne_empty _ 'a'
  · show 'a' ∈ ((a ++ " at ") ++ b).data
    rw [String.data_append, String.data_append]
    refine List.mem_append.mpr (Or.inl (List.mem_append.mpr (Or.inr ?_)))
    decide
  · decide

/-- Any string ending in " alum" has a nonempty normalized key. -/
theorem normalize_key_alum_ne_empty (a : String) :
    normalize_key (a ++ " alum") ≠ "" := by
  apply normalize_key_ne_empty _ 'a'
  · rw [String.data_append]
    refine List.mem_append.mpr (Or.inr ?_)
    decide
  · decide

theorem string_data_ne_nil {s : String} (h : s ≠ "") : s.data ≠ [] := by
  intro hd
  apply h
  cases s with
  | mk data =>
    simp at hd
    subst hd
    rfl

theorem containsSub_self (l : List Char) : containsSub l l = true := by
  simpa using containsSub_append_right l []

theorem containsSubStr_empty_right {n : String} (h : n ≠ "") :
    containsSubStr n "" = false := by
  rw [containsSubStr]
  show containsSub n.data [] = false
  rw [containsSub]
  simpa [List.isEmpty_iff] using string_data_ne_nil h

/-- A true match_entity forces a nonempty normalized left operand. -/
theorem match_entity_ne_left {a b : String} {stop : List String} {n : Nat}
    (h : match_entity a b stop n = true) : normalize_key a ≠ "" := by
  intro hna
  unfold match_entity at h
  rw [hna] at h
  simp at h

/-- Substring containment of the normalized names short-circuits
match_entity to true. -/
theorem match_entity_of_sub {a b : String} (hna : normalize_key a ≠ "")
    (hsub : containsSubStr (normalize_key a) (normalize_key b) = true)
    (stop : List String) (n : Nat) : match_entity a b stop n = true := by
  have hnb : normalize_key b ≠ "" := by
    intro hb
    rw [hb, containsSubStr_empty_right hna] at hsub
    cases hsub
  unfold match_entity
  rw [if_neg, if_pos]
  · exact Or.inl hsub |> Bool.or_eq_true_iff.mpr
  · simp [hna, hnb]

/-- match_entity holds reflexively for a name with nonempty key. -/
theorem match_entity_refl {a : String} (h : normalize_key a ≠ "")
    (stop : List String) (n : Nat) : match_entity a a stop n = true := by
  apply match_entity_of_sub h _ stop n
  rw [containsSubStr]
  exact containsSub_self _

/-- Any string ending in " alum in NYC" has a nonempty normalized key. -/
theorem normalize_key_alum_nyc_ne_empty (a : String) :
    normalize_key (a ++ " alum in NYC") ≠ "" := by
  apply normalize_key_ne_empty _ 'a'
  · rw [String.data_append]
    refine List.mem_append.mpr (Or.inr ?_)
    decide
  · decide

/-! ### Claim C8 -/

/-- C8: with my_tags omitted or None — as at the only production call
site in build_prompt_context — build_anchor_candidates never returns an
anchor of type "industry": the shared-tag source iterates over the
intersection with the empty set. -/
theorem C8_no_industry_anchor (mp : MyProfile) (tp : TargetProfile)
    (hooks derived_hooks target_tags : List String) (a : Anchor)
    (ha : a ∈ build_anchor_candidates mp tp hooks derived_hooks target_tags none) :
    a.type ≠ "industry" := by
  have hpool := mem_build_anchor_candidates ha
  have hgetD : (none : Option (List String)).getD [] = [] := rfl
  rw [hgetD, anchor_pool] at hpool
  simp only [List.mem_append] at hpool
  rcases hpool with ((((((hs | he) | hl) | hi) | hd) | hh) | hdr)
  · rw [(mem_school_anchors hs).1]; decide
  · rcases mem_experience_anchors he with ⟨ht, -⟩ | ⟨ht, -⟩ <;> rw [ht] <;> decide
  · rw [(mem_location_anchors hl).1]; decide
  · rw [industry_anchors_no_my_tags] at hi
    cases hi
  · rw [(mem_domain_anchors hd).1]; decide
  · rw [mem_hook_anchors hh]; decide
  · rw [mem_derived_anchors hdr]; decide

/-- Witness for C8: a concrete candidate list containing the cv domain
anchor, which is indeed not industry-typed. -/
theorem C8_no_industry_anchor_witness :
    ((⟨"domain", "Shared focus on computer vision", 4, "target_tags=cv"⟩ : Anchor)
      ∈ build_anchor_candidates emptyMyProfile emptyTargetProfile [] [] ["cv"] none) ∧
    (⟨"domain", "Shared focus on computer vision", 4, "target_tags=cv"⟩ : Anchor).type
      ≠ "industry" :=
  ⟨by decide, C8_no_industry_anchor emptyMyProfile emptyTargetProfile [] [] ["cv"]
    _ (by decide)⟩

/-! ### Claim C5 -/

theorem domain_anchor_cv_mem {target_tags : List String}
    (hc : target_tags.contains "cv" = true) :
    (⟨"domain", "Shared focus on computer vision", 4, "target_tags=cv"⟩ : Anchor)
      ∈ domain_anchors target_tags := by
  rw [domain_anchors]
  simp [hc]
  exact List.elem_iff.mp hc

theorem domain_anchor_analytics_mem {target_tags : List String}
    (hc : target_tags.contains "analytics" = true) :
    (⟨"domain", "Shared focus on analytics/data", 4, "target_tags=analytics"⟩ : Anchor)
      ∈ domain_anchors target_tags := by
  rw [domain_anchors]
  simp [hc]
  exact List.elem_iff.mp hc

theorem domain_anchor_product_mem {target_tags : List String}
    (hc : target_tags.contains "product" = true) :
    (⟨"domain", "Shared product/analytics focus", 4, "target_tags=product"⟩ : Anchor)
      ∈ domain_anchors target_tags := by
  rw [domain_anchors]
  simp [hc]
  exact List.elem_iff.mp hc

/-- C5 counterexample: with the cv tag on BOTH profiles the builder
still emits the score-4 domain anchor (alongside the industry anchor),
refuting "for a tag shared by both profiles no domain-typed anchor is
emitted for it". -/
theorem C5_counterexample :
    ("cv" ∈ (["cv"] : List String)) ∧
    (∃ a ∈ build_anchor_candidates emptyMyProfile emptyTargetProfile [] [] ["cv"]
        (some ["cv"]), a.type = "industry") ∧
    (∃ a ∈ build_anchor_candidates emptyMyProfile emptyTargetProfile [] [] ["cv"]
        (some ["cv"]),
      a.type = "domain" ∧ a.text = "Shared focus on computer vision" ∧ a.score = 4) := by
  decide

/-- C5 amended: the score-4 domain anchors for cv/analytics/product are
emitted whenever the tag is present on the target, regardless of the
sender tags; dedup may only replace such an entry by a higher-scoring
anchor with the same normalized text. -/
theorem C5_domain_anchor_amended (mp : MyProfile) (tp : TargetProfile)
    (hooks derived_hooks target_tags : List String)
    (my_tags : Option (List String)) :
    (∀ a ∈ build_anchor_candidates mp tp hooks derived_hooks target_tags my_tags,
      a.type = "domain" →
      a.score = 4 ∧
      ((a.text = "Shared focus on computer vision" ∧
          target_tags.contains "cv" = true) ∨
       (a.text = "Shared focus on analytics/data" ∧
          target_tags.contains "analytics" = true) ∨
       (a.text = "Shared product/analytics focus" ∧
          target_tags.contains "product" = true))) ∧
    (target_tags.contains "cv" = true →
      ∃ a ∈ build_anchor_candidates mp tp hooks derived_hooks target_tags my_tags,
        normalize_key a.text = "shared focus on computer vision" ∧ 4 ≤ a.score) ∧
    (target_tags.contains "analytics" = true →
      ∃ a ∈ build_anchor_candidates mp tp hooks derived_hooks target_tags my_tags,
        normalize_key a.text = "shared focus on analytics data" ∧ 4 ≤ a.score) ∧
    (target_tags.contains "product" = true →
      ∃ a ∈ build_anchor_candidates mp tp hooks derived_hooks target_tags my_tags,
        normalize_key a.text = "shared product analytics focus" ∧ 4 ≤ a.score) := by
  refine ⟨?_, ?_, ?_, ?_⟩
  · intro a ha htype
    have hpool := mem_build_anchor_candidates ha
    rw [anchor_pool] at hpool
    simp only [List.mem_append] at hpool
    rcases hpool with ((((((hs | he) | hl) | hi) | hd) | hh) | hdr)
    · rw [(mem_school_anchors hs).1] at htype; exact absurd htype (by decide)
    · rcases mem_experience_anchors he with ⟨ht, -⟩ | ⟨ht, -⟩ <;> rw [ht] at htype <;>
        exact absurd htype (by decide)
    · rw [(mem_location_anchors hl).1] at htype; exact absurd htype (by decide)
    · rw [(mem_industry_anchors hi).1] at htype; exact absurd htype (by decide)
    · rcases mem_domain_anchors hd with ⟨-, hs4, hdisj⟩
      exact ⟨hs4, hdisj⟩
    · rw [mem_hook_anchors hh] at htype; exact absurd htype (by decide)
    · rw [mem_derived_anchors hdr] at htype; exact absurd htype (by decide)
  · intro hc
    have hx : (⟨"domain", "Shared focus on computer vision", 4, "target_tags=cv"⟩ : Anchor)
        ∈ anchor_pool mp tp hooks derived_hooks target_tags (my_tags.getD []) := by
      rw [anchor_pool]
      simp only [List.mem_append]
      exact Or.inl (Or.inl (Or.inr (domain_anchor_cv_mem hc)))
    rcases exists_build_anchor_candidates hx (by decide) with ⟨a, ha, hkey, hscore⟩
    refine ⟨a, ha, ?_, hscore⟩
    rw [hkey]; decide
  · intro hc
    have hx : (⟨"domain", "Shared focus on analytics/data", 4,
        "target_tags=analytics"⟩ : Anchor)
        ∈ anchor_pool mp tp hooks derived_hooks target_tags (my_tags.getD []) := by
      rw [anchor_pool]
      simp only [List.mem_append]
      exact Or.inl (Or.inl (Or.inr (domain_anchor_analytics_mem hc)))
    rcases exists_build_anchor_candidates hx (by decide) with ⟨a, ha, hkey, hscore⟩
    refine ⟨a, ha, ?_, hscore⟩
    rw [hkey]; decide
  · intro hc
    have hx : (⟨"domain", "Shared product/analytics focus", 4,
        "target_tags=product"⟩ : Anchor)
        ∈ anchor_pool mp tp hooks derived_hooks target_tags (my_tags.getD []) := by
      rw [anchor_pool]
      simp only [List.mem_append]
      exact Or.inl (Or.inl (Or.inr (domain_anchor_product_mem hc)))
    rcases exists_build_anchor_candidates hx (by decide) with ⟨a, ha, hkey, hscore⟩
    refine ⟨a, ha, ?_, hscore⟩
    rw [hkey]; decide

/-- Witness for C5 (amended): the cv branch at a concrete input. -/
theorem C5_domain_anchor_amended_witness :
    (["cv"] : List String).contains "cv" = true ∧
    ∃ a ∈ build_anchor_candidates emptyMyProfile emptyTargetProfile [] [] ["cv"]
        (some []),
      normalize_key a.text = "shared focus on computer vision" ∧ 4 ≤ a.score :=
  ⟨by decide, (C5_domain_anchor_amended emptyMyProfile emptyTargetProfile [] [] ["cv"]
    (some [])).2.1 (by decide)⟩

/-! ### Claim C2 -/

/-- C2 counterexample: in c2_target the FIRST experience entry has
neither title nor company, yet a role_company fact (score 12) appears,
built from the second entry — refuting "when the first experience entry
lacks such a title/company pair, no role_company fact appears". -/
theorem C2_counterexample :
    c2_target.top_experiences.head? = some { title := "", company := "" } ∧
    (∃ f ∈ build_target_facts c2_target, f.type = "role_company" ∧ f.score = 12) := by
  decide

/-- C2 amended: build_target_facts emits a role_company fact (score 12)
exactly when SOME experience entry has a nonempty compacted title and a
company not classified as metadata; the first such entry supplies the
fact. -/
theorem C2_role_company_amended (tp : TargetProfile) :
    (∃ f ∈ build_target_facts tp, f.type = "role_company" ∧ f.score = 12) ↔
    ∃ exp ∈ tp.top_experiences, compact_role_title exp.title ≠ "" ∧
      exp.company ≠ "" ∧ is_likely_metadata_company exp.company = false := by
  constructor
  · rintro ⟨f, hf, htype, -⟩
    have hpool := mem_build_target_facts hf
    rw [fact_pool] at hpool
    simp only [List.mem_append] at hpool
    rcases hpool with ((((hrc | hco) | hsc) | hdo) | hhe) | hlo
    · rcases mem_role_company_facts hrc with ⟨-, -, exp, hfind, -⟩
      have hmem := List.mem_of_find?_eq_some hfind
      have hpred := List.find?_some hfind
      refine ⟨exp, hmem, ?_⟩
      simp only [Bool.and_eq_true, bne_iff_ne, ne_eq, Bool.not_eq_true'] at hpred
      exact ⟨hpred.1.1, hpred.1.2, hpred.2⟩
    · rw [(mem_company_facts hco).1] at htype; exact absurd htype (by decide)
    · rw [(mem_school_facts hsc).1] at htype; exact absurd htype (by decide)
    · rw [(mem_domain_facts_of hdo).1] at htype; exact absurd htype (by decide)
    · rw [(mem_headline_facts hhe).1] at htype; exact absurd htype (by decide)
    · rw [(mem_location_facts hlo).1] at htype; exact absurd htype (by decide)
  · rintro ⟨exp, hmem, ht, hc, hm⟩
    have hfind : (first_valid_pair tp).isSome := by
      rw [first_valid_pair, List.find?_isSome]
      refine ⟨exp, hmem, ?_⟩
      simp only [Bool.and_eq_true, bne_iff_ne, ne_eq, Bool.not_eq_true']
      exact ⟨⟨ht, hc⟩, hm⟩
    rcases hopt : first_valid_pair tp with _ | exp0
    · rw [hopt] at hfind; cases hfind
    · have hxpool : (⟨"role_company",
          compact_role_title exp0.title ++ " at " ++ exp0.company, 12⟩ : Fact)
          ∈ fact_pool tp := by
        rw [fact_pool]
        simp only [List.mem_append]
        refine Or.inl (Or.inl (Or.inl (Or.inl (Or.inl ?_))))
        rw [role_company_facts, hopt]
        exact List.mem_singleton.mpr rfl
      have hk : normalize_key (compact_role_title exp0.title ++ " at " ++
          exp0.company) ≠ "" := normalize_key_at_ne_empty _ _
      rcases exists_build_target_facts hxpool hk with ⟨a, ha, -, hscore⟩
      have h12 : (12 : Int) ≤ a.score := hscore
      have hapool := mem_build_target_facts ha
      rw [fact_pool] at hapool
      simp only [List.mem_append] at hapool
      rcases hapool with ((((h1 | h2) | h3) | h4) | h5) | h6
      · rw [role_company_facts, hopt, List.mem_singleton] at h1
        exact ⟨a, ha, by rw [h1], by rw [h1]⟩
      · rcases mem_company_facts h2 with ⟨-, hs⟩; omega
      · rcases mem_school_facts h3 with ⟨-, hs⟩; omega
      · rcases mem_domain_facts_of h4 with ⟨-, hs⟩; omega
      · rcases mem_headline_facts h5 with ⟨-, hs⟩; omega
      · rcases mem_location_facts h6 with ⟨-, hs⟩; omega

/-! ### Claim C9 -/

/-- C9 counterexample: c9_target has no education, its headline "MIT"
contains the normalized sender school, so the claim asks for a
school-typed anchor "MIT alum" (score 12) in the output — but the
crafted caller hook (same normalized text, score 13) replaces it in the
dedup dict, and no school-typed anchor survives. -/
theorem C9_counterexample :
    c9_target.education = [] ∧ c9_target.headline ≠ "" ∧
    normalize_key (clean_school_name "MIT") ≠ "" ∧
    containsSubStr (normalize_key (clean_school_name "MIT"))
      (normalize_key c9_target.headline) = true ∧
    c9_my.schools = ["MIT"] ∧
    (∀ a ∈ build_anchor_candidates c9_my c9_target [c9_hook] [] [] none,
      a.type ≠ "school") := by
  decide

/-- C9 amended: with no education, a nonempty headline, a single sender
school s whose cleaned name matches the headline (explicit normalized
substring, or school-hint word plus entity match at the scaled overlap),
and empty hook lists (so that no higher-scoring same-key candidate can
replace the entry during dedup), the output contains the school anchor
"{cleaned s} alum" with score 12 — retitled "… alum in NYC" with score
16 when both locations are NYC. -/
theorem C9_headline_school_amended (mp : MyProfile) (tp : TargetProfile)
    (target_tags : List String) (my_tags : Option (List String)) (s : String)
    (hschools : mp.schools = [s])
    (hedu : tp.education = [])
    (hheadline : tp.headline ≠ "")
    (hcond :
      (normalize_key (clean_school_name s) ≠ "" ∧
        containsSubStr (normalize_key (clean_school_name s))
          (normalize_key tp.headline) = true) ∨
      (scanHits (wordHitB school_hint_words) none
          (normalize_key tp.headline).data = true ∧
        match_entity (clean_school_name s) tp.headline school_stop_words
          (school_min_overlap (clean_school_name s) tp.headline
            school_stop_words) = true)) :
    ∃ a ∈ build_anchor_candidates mp tp [] [] target_tags my_tags,
      a.type = "school" ∧
      (if is_nyc mp.location && is_nyc tp.location then
        a.text = clean_school_name s ++ " alum in NYC" ∧ a.score = 16
      else
        a.text = clean_school_name s ++ " alum" ∧ a.score = 12) := by
  have hment : match_entity (clean_school_name s) tp.headline school_stop_words
      (school_min_overlap (clean_school_name s) tp.headline school_stop_words)
      = true := by
    rcases hcond with ⟨hne, hsub⟩ | ⟨-, hm⟩
    · exact match_entity_of_sub hne hsub _ _
    · exact hm
  have hcsne : normalize_key (clean_school_name s) ≠ "" := match_entity_ne_left hment
  have hcondb : (scanHits (wordHitB school_hint_words) none
      (normalize_key tp.headline).data
      || ((normalize_key (clean_school_name s) != "") &&
          containsSubStr (normalize_key (clean_school_name s))
            (normalize_key tp.headline))) = true := by
    rcases hcond with ⟨hne, hsub⟩ | ⟨hhint, -⟩
    · refine Bool.or_eq_true_iff.mpr (Or.inr ?_)
      simp [hne, hsub]
    · exact Bool.or_eq_true_iff.mpr (Or.inl hhint)
  have hmatches : headline_school_matches mp.schools tp.headline
      = [clean_school_name s] := by
    rw [headline_school_matches, hschools]
    rw [if_neg (by simp [hheadline])]
    simp only [List.filterMap_cons, List.filterMap_nil]
    rw [if_neg (by simp [hcondb]), if_pos hment]
  have hmself : match_entity (clean_school_name s) (clean_school_name s)
      school_stop_words
      (school_min_overlap (clean_school_name s) (clean_school_name s)
        school_stop_words) = true :=
    match_entity_refl hcsne _ _
  by_cases hnyc : (is_nyc mp.location && is_nyc tp.location) = true
  · have hschoolsec : school_anchors mp tp =
        [⟨"school", clean_school_name s ++ " alum in NYC", 16,
          s ++ " + " ++ clean_school_name s ++ " + " ++ tp.location⟩] := by
      rw [school_anchors, hedu, hmatches, hschools]
      simp only [List.map_nil, List.nil_append, List.map_cons,
        List.filterMap_cons, List.filterMap_nil]
      rw [if_pos hmself, if_pos hnyc]
      rfl
    have hApool : (⟨"school", clean_school_name s ++ " alum in NYC", 16,
        s ++ " + " ++ clean_school_name s ++ " + " ++ tp.location⟩ : Anchor)
        ∈ anchor_pool mp tp [] [] target_tags (my_tags.getD []) := by
      rw [anchor_pool, hschoolsec]
      simp only [List.mem_append]
      refine Or.inl (Or.inl (Or.inl (Or.inl (Or.inl (Or.inl ?_)))))
      exact List.mem_singleton.mpr rfl
    rcases exists_build_anchor_candidates hApool
      (normalize_key_alum_nyc_ne_empty _) with ⟨a, ha, -, hscore⟩
    have h16 : (16 : Int) ≤ a.score := hscore
    have hapool := mem_build_anchor_candidates ha
    rw [anchor_pool, hschoolsec] at hapool
    simp only [List.mem_append] at hapool
    rcases hapool with ((((((h1 | h2) | h3) | h4) | h5) | h6) | h7)
    · rw [List.mem_singleton] at h1
      refine ⟨a, ha, by rw [h1], ?_⟩
      rw [if_pos hnyc]
      exact ⟨by rw [h1], by rw [h1]⟩
    · rcases mem_experience_anchors h2 with ⟨-, hs⟩ | ⟨-, hs | hs⟩ <;> omega
    · rcases mem_location_anchors h3 with ⟨-, hs⟩; omega
    · rcases mem_industry_anchors h4 with ⟨-, hs⟩; omega
    · rcases mem_domain_anchors h5 with ⟨-, hs, -⟩; omega
    · cases h6
    · cases h7
  · have hschoolsec : school_anchors mp tp =
        [⟨"school", clean_school_name s ++ " alum", 12,
          s ++ " + " ++ clean_school_name s ++ " + " ++ tp.location⟩] := by
      rw [school_anchors, hedu, hmatches, hschools]
      simp only [List.map_nil, List.nil_append, List.map_cons,
        List.filterMap_cons, List.filterMap_nil]
      rw [if_pos hmself, if_neg hnyc]
      rfl
    have hApool : (⟨"school", clean_school_name s ++ " alum", 12,
        s ++ " + " ++ clean_school_name s ++ " + " ++ tp.location⟩ : Anchor)
        ∈ anchor_pool mp tp [] [] target_tags (my_tags.getD []) := by
      rw [anchor_pool, hschoolsec]
      simp only [List.mem_append]
      refine Or.inl (Or.inl (Or.inl (Or.inl (Or.inl (Or.inl ?_)))))
      exact List.mem_singleton.mpr rfl
    rcases exists_build_anchor_candidates hApool
      (normalize_key_alum_ne_empty _) with ⟨a, ha, -, hscore⟩
    have h12 : (12 : Int) ≤ a.score := hscore
    have hapool := mem_build_anchor_candidates ha
    rw [anchor_pool, hschoolsec] at hapool
    simp only [List.mem_append] at hapool
    rcases hapool with ((((((h1 | h2) | h3) | h4) | h5) | h6) | h7)
    · rw [List.mem_singleton] at h1
      refine ⟨a, ha, by rw [h1], ?_⟩
      rw [if_neg hnyc]
      exact ⟨by rw [h1], by rw [h1]⟩
    · rcases mem_experience_anchors h2 with ⟨-, hs⟩ | ⟨-, hs | hs⟩ <;> omega
    · rcases mem_location_anchors h3 with ⟨-, hs⟩; omega
    · rcases mem_industry_anchors h4 with ⟨-, hs⟩; omega
    · rcases mem_domain_anchors h5 with ⟨-, hs, -⟩; omega
    · cases h6
    · cases h7

/-! ### Claim C3: selector lemmas -/

theorem mainChoice_isSome (anchors : List Anchor) (cycle : Nat) (st : SelState)
    (hne : anchors ≠ []) : (mainChoice anchors cycle st).isSome = true := by
  rw [mainChoice]
  rcases h1 : pick_rotated (primaryPool anchors st) cycle with _ | a
  · rcases h2 : pick_rotated (anchors.filter fun a =>
        normalize_key a.text != "" &&
        !st.usedTexts.contains (normalize_key a.text)) cycle with _ | a
    · rcases h3 : pick_rotated (anchors.filter fun a =>
          !st.usedTypes.contains (anchor_type_key a)) cycle with _ | a
      · rcases @pick_rotated_some anchors cycle hne
          with ⟨a, ha, -⟩
        simp [ha]
      · simp
    · simp
  · simp

/-- The chosen anchor always comes from the input list. -/
theorem mainChoice_mem {anchors : List Anchor} {cycle : Nat} {st : SelState}
    {c : Anchor} (h : mainChoice anchors cycle st = some c) : c ∈ anchors := by
  rw [mainChoice] at h
  rcases h1 : pick_rotated (primaryPool anchors st) cycle with _ | a <;> rw [h1] at h
  · rcases h2 : pick_rotated (anchors.filter fun a =>
        normalize_key a.text != "" &&
        !st.usedTexts.contains (normalize_key a.text)) cycle with _ | a <;>
      rw [h2] at h
    · rcases h3 : pick_rotated (anchors.filter fun a =>
          !st.usedTypes.contains (anchor_type_key a)) cycle with _ | a <;>
        rw [h3] at h
      · exact pick_rotated_mem h
      · cases h
        exact List.mem_of_mem_filter (pick_rotated_mem h3)
    · cases h
      exact List.mem_of_mem_filter (pick_rotated_mem h2)
  · cases h
    exact List.mem_of_mem_filter (pick_rotated_mem h1)

/-- The shape of the plan after one main-loop step. -/
theorem mainStep_plan (anchors : List Anchor) (cycle : Nat) (st : SelState)
    (v : String) :
    (mainStep anchors cycle st v).plan = st.plan ∨
    ∃ ch, (mainStep anchors cycle st v).plan = st.plan ++ [(v, ch)] := by
  rw [mainStep]
  split
  · exact Or.inl rfl
  · rcases hmc : mainChoice anchors cycle st with _ | c
    · exact Or.inl rfl
    · exact Or.inr ⟨c, rfl⟩

theorem mainStep_countP_other {v w : String} (hne : v ≠ w)
    (anchors : List Anchor) (cycle : Nat) (st : SelState) :
    ((mainStep anchors cycle st w).plan).countP (fun p => p.1 == v) =
    st.plan.countP (fun p => p.1 == v) := by
  rcases mainStep_plan anchors cycle st w with h | ⟨ch, h⟩ <;> rw [h]
  rw [List.countP_append]
  simp [List.countP_cons, beq_iff_eq, Ne.symm hne]

theorem mainStep_countP_self {v : String} {anchors : List Anchor}
    (hne : anchors ≠ []) (cycle : Nat) (st : SelState)
    (hle : st.plan.countP (fun p => p.1 == v) ≤ 1) :
    ((mainStep anchors cycle st v).plan).countP (fun p => p.1 == v) = 1 := by
  by_cases hv : (st.plan.map Prod.fst).contains v = true
  · rw [mainStep, if_pos hv]
    have hpos : 0 < st.plan.countP (fun p => p.1 == v) := by
      rw [List.countP_pos_iff]
      have hmem := List.elem_iff.mp hv
      rcases List.mem_map.mp hmem with ⟨p, hp, hpv⟩
      exact ⟨p, hp, by simp [hpv]⟩
    omega
  · rw [mainStep, if_neg (by simpa using hv)]
    have hsome := mainChoice_isSome anchors cycle st hne
    rcases hmc : mainChoice anchors cycle st with _ | c
    · rw [hmc] at hsome; cases hsome
    · show ((st.plan ++ [(v, c)]).countP (fun p => p.1 == v)) = 1
      rw [List.countP_append]
      have h0 : st.plan.countP (fun p => p.1 == v) = 0 := by
        rw [List.countP_eq_zero]
        intro p hp
        intro hpv
        apply hv
        rw [List.elem_iff]
        exact List.mem_map.mpr ⟨p, hp, by simpa using hpv⟩
      simp [h0, List.countP_cons]

theorem mainStep_keys (P : String → Prop) (anchors : List Anchor) (cycle : Nat)
    (st : SelState) (v : String) (hP : ∀ p ∈ st.plan, P p.1) (hv : P v) :
    ∀ p ∈ (mainStep anchors cycle st v).plan, P p.1 := by
  rcases mainStep_plan anchors cycle st v with h | ⟨ch, h⟩ <;> rw [h]
  · exact hP
  · intro p hp
    rcases List.mem_append.mp hp with h1 | h1
    · exact hP p h1
    · rw [List.mem_singleton.mp h1]
      exact hv

/-- The shape of the plan after one seeding step. -/
theorem seedStep_plan (anchors : List Anchor) (cycle : Nat) (st : SelState)
    (vr : String × String) :
    (seedStep anchors cycle st vr).plan = st.plan ∨
    ∃ ch, (seedStep anchors cycle st vr).plan = st.plan ++ [(vr.1, ch)] := by
  rw [seedStep]
  rcases hp : pick_rotated _ cycle with _ | c
  · exact Or.inl rfl
  · exact Or.inr ⟨c, rfl⟩

theorem seedStep_countP_other {v : String} {vr : String × String} (hne : v ≠ vr.1)
    (anchors : List Anchor) (cycle : Nat) (st : SelState) :
    ((seedStep anchors cycle st vr).plan).countP (fun p => p.1 == v) =
    st.plan.countP (fun p => p.1 == v) := by
  rcases seedStep_plan anchors cycle st vr with h | ⟨ch, h⟩ <;> rw [h]
  rw [List.countP_append]
  simp [List.countP_cons, beq_iff_eq, Ne.symm hne]

theorem seedStep_countP_le (v : String) (anchors : List Anchor) (cycle : Nat)
    (st : SelState) (vr : String × String) :
    ((seedStep anchors cycle st vr).plan).countP (fun p => p.1 == v) ≤
    st.plan.countP (fun p => p.1 == v) + 1 := by
  rcases seedStep_plan anchors cycle st vr with h | ⟨ch, h⟩ <;> rw [h]
  · exact Nat.le_succ_of_le (Nat.le_refl _)
  · rw [List.countP_append]
    have : ([(vr.1, ch)].countP (fun p => p.1 == v)) ≤ 1 := by
      simp [List.countP_cons]
      split <;> simp
    omega

theorem seedStep_keys (P : String → Prop) (anchors : List Anchor) (cycle : Nat)
    (st : SelState) (vr : String × String) (hP : ∀ p ∈ st.plan, P p.1)
    (hv : P vr.1) :
    ∀ p ∈ (seedStep anchors cycle st vr).plan, P p.1 := by
  rcases seedStep_plan anchors cycle st vr with h | ⟨ch, h⟩ <;> rw [h]
  · exact hP
  · intro p hp
    rcases List.mem_append.mp hp with h1 | h1
    · exact hP p h1
    · rw [List.mem_singleton.mp h1]
      exact hv

/-- Counts of labels outside the processed list are unchanged by the
main fold. -/
theorem mainFold_countP_other {v : String} (anchors : List Anchor) (cycle : Nat) :
    ∀ (labels : List String) (st : SelState), v ∉ labels →
    ((labels.foldl (mainStep anchors cycle) st).plan).countP (fun p => p.1 == v) =
    st.plan.countP (fun p => p.1 == v) := by
  intro labels
  induction labels with
  | nil => intro st _; rfl
  | cons w rest ih =>
    intro st hv
    have hvw : v ≠ w := fun h => hv (h ▸ List.mem_cons_self _ _)
    have hvrest : v ∉ rest := fun h => hv (List.mem_cons_of_mem _ h)
    rw [List.foldl_cons, ih _ hvrest, mainStep_countP_other hvw]

/-- After folding the main loop over a duplicate-free label list, every
label in it appears exactly once in the plan (given nonempty anchors and
at-most-once counts beforehand). -/
theorem mainFold_coverage {anchors : List Anchor} (hne : anchors ≠ [])
    (cycle : Nat) :
    ∀ (labels : List String) (st : SelState), labels.Nodup →
    (∀ u ∈ labels, st.plan.countP (fun p => p.1 == u) ≤ 1) →
    ∀ v ∈ labels,
    ((labels.foldl (mainStep anchors cycle) st).plan).countP (fun p => p.1 == v) = 1 := by
  intro labels
  induction labels with
  | nil => intro st _ _ v hv; cases hv
  | cons w rest ih =>
    intro st hnodup hcount v hv
    rw [List.nodup_cons] at hnodup
    rcases List.mem_cons.mp hv with h | h
    · subst h
      rw [List.foldl_cons]
      rw [mainFold_countP_other anchors cycle rest _ hnodup.1]
      exact mainStep_countP_self hne cycle st (hcount v (List.mem_cons_self _ _))
    · rw [List.foldl_cons]
      refine ih _ hnodup.2 ?_ v h
      intro u hu
      have huw : u ≠ w := fun heq => hnodup.1 (heq ▸ hu)
      rw [mainStep_countP_other huw]
      exact hcount u (List.mem_cons_of_mem _ hu)

theorem mainFold_keys (P : String → Prop) (anchors : List Anchor) (cycle : Nat) :
    ∀ (labels : List String) (st : SelState), (∀ v ∈ labels, P v) →
    (∀ p ∈ st.plan, P p.1) →
    ∀ p ∈ (labels.foldl (mainStep anchors cycle) st).plan, P p.1 := by
  intro labels
  induction labels with
  | nil => intro st _ hst; exact hst
  | cons w rest ih =>
    intro st hlabels hst
    rw [List.foldl_cons]
    refine ih _ (fun v hv => hlabels v (List.mem_cons_of_mem _ hv)) ?_
    exact mainStep_keys P anchors cycle st w hst (hlabels w (List.mem_cons_self _ _))

/-- Folding the seeding loop adds at most one entry per seed variant. -/
theorem seedFold_countP_le (anchors : List Anchor) (cycle : Nat) (u : String) :
    ∀ (seeds : List (String × String)) (st : SelState),
      (seeds.map Prod.fst).Nodup →
      ((seeds.foldl (seedStep anchors cycle) st).plan).countP (fun p => p.1 == u) ≤
      st.plan.countP (fun p => p.1 == u) +
        (if u ∈ seeds.map Prod.fst then 1 else 0) := by
  intro seeds
  induction seeds with
  | nil => intro st _; simp
  | cons q rest ih =>
    intro st hnodup
    rw [List.map_cons, List.nodup_cons] at hnodup
    rw [List.foldl_cons]
    have hstep := ih (seedStep anchors cycle st q) hnodup.2
    by_cases hq : u = q.1
    · have h1 := seedStep_countP_le u anchors cycle st q
      have hnotrest : u ∉ rest.map Prod.fst := by
        rw [hq]
        exact hnodup.1
      rw [if_neg hnotrest] at hstep
      have hmem : u ∈ (q :: rest).map Prod.fst := by
        rw [List.map_cons, hq]
        exact List.mem_cons_self _ _
      rw [if_pos hmem]
      omega
    · have h1 := seedStep_countP_other hq anchors cycle st
      rw [h1] at hstep
      have hiff : (u ∈ (q :: rest).map Prod.fst) ↔ (u ∈ rest.map Prod.fst) := by
        rw [List.map_cons, List.mem_cons]
        constructor
        · rintro (h | h)
          · exact absurd h hq
          · exact h
        · exact Or.inr
      by_cases hmem : u ∈ rest.map Prod.fst
      · rw [if_pos (hiff.mpr hmem)]
        rw [if_pos hmem] at hstep
        omega
      · rw [if_neg (fun hc => hmem (hiff.mp hc))]
        rw [if_neg hmem] at hstep
        omega

theorem seedFold_keys (P : String → Prop) (anchors : List Anchor) (cycle : Nat) :
    ∀ (seeds : List (String × String)) (st : SelState),
      (∀ q ∈ seeds, P q.1) → (∀ p ∈ st.plan, P p.1) →
      ∀ p ∈ (seeds.foldl (seedStep anchors cycle) st).plan, P p.1 := by
  intro seeds
  induction seeds with
  | nil => intro st _ hst; exact hst
  | cons q rest ih =>
    intro st hseeds hst
    rw [List.foldl_cons]
    refine ih _ (fun r hr => hseeds r (List.mem_cons_of_mem _ hr)) ?_
    exact seedStep_keys P anchors cycle st q hst (hseeds q (List.mem_cons_self _ _))

/-- C3: select_anchor_plan returns the empty plan on an empty anchor
list, and otherwise exactly one entry per variant label (and no entry
for any other key), for every cycle index. -/
theorem C3_plan_coverage (anchors : List Anchor) (cycle_index : Int) :
    (anchors = [] → select_anchor_plan anchors cycle_index = []) ∧
    (anchors ≠ [] →
      (∀ v ∈ VARIANT_LABELS,
        (select_anchor_plan anchors cycle_index).countP (fun p => p.1 == v) = 1) ∧
      (∀ p ∈ select_anchor_plan anchors cycle_index, p.1 ∈ VARIANT_LABELS)) := by
  constructor
  · intro h
    subst h
    rfl
  · intro hne
    have hunfold : select_anchor_plan anchors cycle_index =
        (VARIANT_LABELS.foldl (mainStep anchors ((max 0 cycle_index).toNat))
          (((VARIANT_LABELS.take
              ((if anchors.any (fun a => anchor_type_key a == "school") then
                  ["school"] else []) ++
               (if anchors.any (fun a => anchor_type_key a == "industry") then
                  ["industry"] else [])).length).zip
            ((if anchors.any (fun a => anchor_type_key a == "school") then
                ["school"] else []) ++
             (if anchors.any (fun a => anchor_type_key a == "industry") then
                ["industry"] else []))).foldl
            (seedStep anchors ((max 0 cycle_index).toNat)) ⟨[], [], []⟩)).plan := rfl
    rw [hunfold]
    have hnodupLabels : VARIANT_LABELS.Nodup := by decide
    set cyc := (max 0 cycle_index).toNat with hcyc
    set R := (if anchors.any (fun a => anchor_type_key a == "school") then
        ["school"] else []) ++
      (if anchors.any (fun a => anchor_type_key a == "industry") then
        ["industry"] else []) with hR
    set seeds := (VARIANT_LABELS.take R.length).zip R with hseeds
    set st0 := seeds.foldl (seedStep anchors cyc) ⟨[], [], []⟩ with hst0
    have hfst : seeds.map Prod.fst = VARIANT_LABELS.take R.length := by
      rw [hseeds]
      exact List.map_fst_zip _ _ (List.length_take_le _ _)
    have hnodupFst : (seeds.map Prod.fst).Nodup := by
      rw [hfst]
      exact (List.take_sublist _ _).nodup hnodupLabels
    have hbound : ∀ u ∈ VARIANT_LABELS,
        st0.plan.countP (fun p => p.1 == u) ≤ 1 := by
      intro u _
      have := seedFold_countP_le anchors cyc u seeds ⟨[], [], []⟩ hnodupFst
      rw [hst0]
      have hz : (SelState.mk [] [] []).plan.countP (fun p => p.1 == u) = 0 := rfl
      rw [hz] at this
      split at this <;> omega
    have hkeys0 : ∀ p ∈ st0.plan, p.1 ∈ VARIANT_LABELS := by
      rw [hst0]
      refine seedFold_keys _ anchors cyc seeds ⟨[], [], []⟩ ?_ (by intro p hp; cases hp)
      intro q hq
      have hmem : q.1 ∈ seeds.map Prod.fst := List.mem_map_of_mem _ hq
      rw [hfst] at hmem
      exact List.take_subset _ _ hmem
    exact ⟨mainFold_coverage hne cyc VARIANT_LABELS st0 hnodupLabels hbound,
      mainFold_keys _ anchors cyc VARIANT_LABELS st0 (fun v hv => hv) hkeys0⟩

/-- Witness for C3 at a concrete anchor list and cycle index. -/
theorem C3_plan_coverage_witness :
    (([⟨"company", "x", 9, ""⟩] : List Anchor) ≠ []) ∧
    (select_anchor_plan [⟨"company", "x", 9, ""⟩] 5).countP
      (fun p => p.1 == "short") = 1 :=
  ⟨by decide,
   ((C3_plan_coverage [⟨"company", "x", 9, ""⟩] 5).2 (by decide)).1 "short"
     (by decide)⟩

/-! ### Claim C6: diversity of anchor types -/

/-- C6 counterexample: c6_anchors contains three anchors of pairwise
distinct types, yet the resulting plan uses only two distinct types —
the secondary pool (unused text, any type) is tried before the type
diversification pool, so duplicate normalized texts break diversity. -/
theorem C6_counterexample :
    ((⟨"company", "x", 9, ""⟩ : Anchor) ∈ c6_anchors ∧
     (⟨"role", "x", 6, ""⟩ : Anchor) ∈ c6_anchors ∧
     (⟨"location", "x", 6, ""⟩ : Anchor) ∈ c6_anchors ∧
     anchor_type_key (⟨"company", "x", 9, ""⟩ : Anchor) ≠
       anchor_type_key (⟨"role", "x", 6, ""⟩ : Anchor) ∧
     anchor_type_key (⟨"company", "x", 9, ""⟩ : Anchor) ≠
       anchor_type_key (⟨"location", "x", 6, ""⟩ : Anchor) ∧
     anchor_type_key (⟨"role", "x", 6, ""⟩ : Anchor) ≠
       anchor_type_key (⟨"location", "x", 6, ""⟩ : Anchor)) ∧
    ((select_anchor_plan c6_anchors 0).map
      (fun p => anchor_type_key p.2)).dedup.length = 2 := by
  decide

theorem length_le_of_nodup_subset {α : Type} [DecidableEq α] {l l' : List α}
    (hn : l.Nodup) (hsub : ∀ x ∈ l, x ∈ l') : l.length ≤ l'.length := by
  calc l.length = l.toFinset.card := (List.toFinset_card_of_nodup hn).symm
    _ ≤ l'.toFinset.card := Finset.card_le_card
        (fun x hx => List.mem_toFinset.mpr (hsub x (List.mem_toFinset.mp hx)))
    _ ≤ l'.length := l'.toFinset_card_le

theorem mem_primaryPool {anchors : List Anchor} {st : SelState} {a : Anchor} :
    a ∈ primaryPool anchors st ↔
    (a ∈ anchors ∧ normalize_key a.text ≠ "" ∧
     st.usedTexts.contains (normalize_key a.text) = false ∧
     st.usedTypes.contains (anchor_type_key a) = false) := by
  rw [primaryPool, List.mem_filter]
  simp only [Bool.and_eq_true, bne_iff_ne, ne_eq, Bool.not_eq_true']
  tauto

/-- A nonempty primary pool is what the main loop picks from. -/
theorem mainChoice_primary {anchors : List Anchor} {cycle : Nat} {st : SelState}
    (h : primaryPool anchors st ≠ []) :
    ∃ c, mainChoice anchors cycle st = some c ∧ c ∈ primaryPool anchors st := by
  rcases @pick_rotated_some (primaryPool anchors st) cycle h
    with ⟨c, hc, hmem⟩
  refine ⟨c, ?_, hmem⟩
  rw [mainChoice, hc]

/-- One main-loop step preserves the invariant and plants its variant,
under the diversity hypotheses. -/
theorem mainStep_inv {anchors : List Anchor} {cycle : Nat} {st : SelState}
    {v : String}
    (hK : ∀ a ∈ anchors, normalize_key a.text ≠ "")
    (hD : (anchors.map (fun a => normalize_key a.text)).Nodup)
    (a1 a2 a3 : Anchor) (h1 : a1 ∈ anchors) (h2 : a2 ∈ anchors)
    (h3 : a3 ∈ anchors)
    (h12 : anchor_type_key a1 ≠ anchor_type_key a2)
    (h13 : anchor_type_key a1 ≠ anchor_type_key a3)
    (h23 : anchor_type_key a2 ≠ anchor_type_key a3)
    (hInv : SelInv anchors st) (hv : v ∈ VARIANT_LABELS) :
    SelInv anchors (mainStep anchors cycle st v) ∧
    v ∈ ((mainStep anchors cycle st v).plan).map Prod.fst ∧
    ∀ w ∈ st.plan.map Prod.fst, w ∈ ((mainStep anchors cycle st v).plan).map Prod.fst := by
  obtain ⟨hTy, hTx, hValues, hTyNodup, hKeyNodup, hKeyLab⟩ := hInv
  by_cases hvmem : (st.plan.map Prod.fst).contains v = true
  · rw [mainStep, if_pos hvmem]
    exact ⟨⟨hTy, hTx, hValues, hTyNodup, hKeyNodup, hKeyLab⟩,
      List.elem_iff.mp hvmem, fun w hw => hw⟩
  · have hvnot : v ∉ st.plan.map Prod.fst := fun h =>
      hvmem (List.elem_iff.mpr h)
    have hplanlen : st.plan.length ≤ 2 := by
      have hkeylen : (st.plan.map Prod.fst).length ≤ 2 := by
        have hsub : ∀ x ∈ st.plan.map Prod.fst, x ∈ VARIANT_LABELS.erase v := by
          intro x hx
          rcases List.mem_map.mp hx with ⟨p, hp, hpx⟩
          have hxv : x ≠ v := fun heq => hvnot (heq ▸ hx)
          exact (List.mem_erase_of_ne hxv).mpr (hpx ▸ hKeyLab p hp)
        have := length_le_of_nodup_subset hKeyNodup hsub
        have herase : (VARIANT_LABELS.erase v).length ≤ 2 := by
          by_cases hvl : v ∈ VARIANT_LABELS
          · rw [List.length_erase_of_mem hvl]
            decide
          · rw [List.erase_of_not_mem hvl]
            exact absurd hv hvl
        omega
      simpa using hkeylen
    have htypeslen : st.usedTypes.length ≤ 2 := by
      rw [hTy]
      simpa using hplanlen
    have hex : ∃ a ∈ anchors, st.usedTypes.contains (anchor_type_key a) = false := by
      by_contra hall
      push_neg at hall
      have hmem : ∀ a ∈ anchors, anchor_type_key a ∈ st.usedTypes := by
        intro a ha
        have := hall a ha
        rcases hcontains : st.usedTypes.contains (anchor_type_key a) with _ | _
        · exact absurd hcontains this
        · exact List.elem_iff.mp hcontains
      have hnodup3 : ([anchor_type_key a1, anchor_type_key a2,
          anchor_type_key a3]).Nodup := by
        simp [h12, h13, h23]
      have hsub3 : ∀ x ∈ [anchor_type_key a1, anchor_type_key a2,
          anchor_type_key a3], x ∈ st.usedTypes := by
        intro x hx
        rcases List.mem_cons.mp hx with h | hx
        · exact h ▸ hmem a1 h1
        rcases List.mem_cons.mp hx with h | hx
        · exact h ▸ hmem a2 h2
        rcases List.mem_cons.mp hx with h | hx
        · exact h ▸ hmem a3 h3
        · cases hx
      have := length_le_of_nodup_subset hnodup3 hsub3
      simp at this
      omega
    rcases hex with ⟨ax, hax, haxty⟩
    have haxtx : st.usedTexts.contains (normalize_key ax.text) = false := by
      rcases hcontains : st.usedTexts.contains (normalize_key ax.text) with _ | _
      · rfl
      · exfalso
        have hmem := List.elem_iff.mp hcontains
        rw [hTx] at hmem
        rcases List.mem_map.mp hmem with ⟨p, hp, hpx⟩
        have heq : p.2 = ax :=
          List.inj_on_of_nodup_map hD (hValues p hp) hax hpx
        have hmm : anchor_type_key ax ∈ st.usedTypes := by
          rw [hTy]
          exact List.mem_map.mpr ⟨p, hp, by rw [heq]⟩
        have hcc : st.usedTypes.contains (anchor_type_key ax) = true :=
          List.elem_iff.mpr hmm
        rw [haxty] at hcc
        cases hcc
    have hprim : primaryPool anchors st ≠ [] := by
      intro hcontra
      have : ax ∈ primaryPool anchors st :=
        mem_primaryPool.mpr ⟨hax, hK ax hax, haxtx, haxty⟩
      rw [hcontra] at this
      cases this
    rcases @mainChoice_primary anchors cycle st hprim with ⟨c, hmc, hcmem⟩
    rcases mem_primaryPool.mp hcmem with ⟨hcanch, hck, hctx, hcty⟩
    rw [mainStep, if_neg (by simpa using hvmem), hmc]
    have hctynot : anchor_type_key c ∉ st.plan.map (fun p => anchor_type_key p.2) := by
      intro hmem
      have hmm : anchor_type_key c ∈ st.usedTypes := by
        rw [hTy]; exact hmem
      have hcc : st.usedTypes.contains (anchor_type_key c) = true :=
        List.elem_iff.mpr hmm
      rw [hcty] at hcc
      cases hcc
    have hctxnot : normalize_key c.text ∉ st.plan.map (fun p => normalize_key p.2.text) := by
      intro hmem
      have hmm : normalize_key c.text ∈ st.usedTexts := by
        rw [hTx]; exact hmem
      have hcc : st.usedTexts.contains (normalize_key c.text) = true :=
        List.elem_iff.mpr hmm
      rw [hctx] at hcc
      cases hcc
    refine ⟨⟨?_, ?_, ?_, ?_, ?_, ?_⟩, ?_, ?_⟩
    · show st.usedTypes ++ [anchor_type_key c] = _
      rw [hTy, List.map_append]
      rfl
    · show (if (normalize_key c.text != "") = true then
          st.usedTexts ++ [normalize_key c.text] else st.usedTexts) = _
      rw [if_pos (by simpa using hck), hTx, List.map_append]
      rfl
    · intro p hp
      rcases List.mem_append.mp hp with h | h
      · exact hValues p h
      · rw [List.mem_singleton.mp h]
        exact hcanch
    · rw [List.map_append]
      simp only [List.map_cons, List.map_nil]
      rw [List.nodup_append]
      refine ⟨hTyNodup, List.nodup_singleton _, ?_⟩
      intro b hb hbx
      rw [List.mem_singleton] at hbx
      subst hbx
      exact hctynot hb
    · rw [List.map_append]
      simp only [List.map_cons, List.map_nil]
      rw [List.nodup_append]
      refine ⟨hKeyNodup, List.nodup_singleton _, ?_⟩
      intro b hb hbx
      rw [List.mem_singleton] at hbx
      subst hbx
      exact hvnot hb
    · intro p hp
      rcases List.mem_append.mp hp with h | h
      · exact hKeyLab p h
      · rw [List.mem_singleton.mp h]
        exact hv
    · rw [List.map_append]
      refine List.mem_append.mpr (Or.inr ?_)
      simp
    · intro w hw
      rw [List.map_append]
      exact List.mem_append.mpr (Or.inl hw)

/-- A seeding step preserves the invariant when its required type and
variant are fresh. -/
theorem seedStep_inv {anchors : List Anchor} {cycle : Nat} {st : SelState}
    {vr : String × String}
    (hInv : SelInv anchors st) (hv : vr.1 ∈ VARIANT_LABELS)
    (hvnot : vr.1 ∉ st.plan.map Prod.fst)
    (htype : vr.2 ∉ st.usedTypes) :
    SelInv anchors (seedStep anchors cycle st vr) := by
  obtain ⟨hTy, hTx, hValues, hTyNodup, hKeyNodup, hKeyLab⟩ := hInv
  rw [seedStep]
  rcases hp : pick_rotated (anchors.filter fun a =>
      anchor_type_key a == vr.2 && normalize_key a.text != "" &&
      !st.usedTexts.contains (normalize_key a.text)) cycle with _ | c
  · exact ⟨hTy, hTx, hValues, hTyNodup, hKeyNodup, hKeyLab⟩
  · have hcmem := pick_rotated_mem hp
    rw [List.mem_filter] at hcmem
    rcases hcmem with ⟨hcanch, hcond⟩
    simp only [Bool.and_eq_true, beq_iff_eq, bne_iff_ne, ne_eq,
      Bool.not_eq_true'] at hcond
    rcases hcond with ⟨⟨hctype, hck⟩, hctx⟩
    have hctxnot : normalize_key c.text ∉
        st.plan.map (fun p => normalize_key p.2.text) := by
      intro hmem
      have hmm : normalize_key c.text ∈ st.usedTexts := by
        rw [hTx]; exact hmem
      have hcc : st.usedTexts.contains (normalize_key c.text) = true :=
        List.elem_iff.mpr hmm
      rw [hctx] at hcc
      cases hcc
    have hctynot : anchor_type_key c ∉
        st.plan.map (fun p => anchor_type_key p.2) := by
      intro hmem
      apply htype
      rw [hTy, ← hctype]
      exact hmem
    refine ⟨?_, ?_, ?_, ?_, ?_, ?_⟩
    · show st.usedTypes ++ [anchor_type_key c] = _
      rw [hTy, List.map_append]
      rfl
    · show st.usedTexts ++ [normalize_key c.text] = _
      rw [hTx, List.map_append]
      rfl
    · intro p hp'
      rcases List.mem_append.mp hp' with h | h
      · exact hValues p h
      · rw [List.mem_singleton.mp h]
        exact hcanch
    · rw [List.map_append]
      simp only [List.map_cons, List.map_nil]
      rw [List.nodup_append]
      refine ⟨hTyNodup, List.nodup_singleton _, ?_⟩
      intro b hb hbx
      rw [List.mem_singleton] at hbx
      subst hbx
      exact hctynot hb
    · rw [List.map_append]
      simp only [List.map_cons, List.map_nil]
      rw [List.nodup_append]
      refine ⟨hKeyNodup, List.nodup_singleton _, ?_⟩
      intro b hb hbx
      rw [List.mem_singleton] at hbx
      subst hbx
      exact hvnot hb
    · intro p hp'
      rcases List.mem_append.mp hp' with h | h
      · exact hKeyLab p h
      · rw [List.mem_singleton.mp h]
        exact hv

/-- Plan keys only grow along the main fold. -/
theorem mainFold_keys_mono (anchors : List Anchor) (cycle : Nat) :
    ∀ (labels : List String) (st : SelState) (u : String),
      u ∈ st.plan.map Prod.fst →
      u ∈ ((labels.foldl (mainStep anchors cycle) st).plan).map Prod.fst := by
  intro labels
  induction labels with
  | nil => intro st u hu; exact hu
  | cons w rest ih =>
    intro st u hu
    rw [List.foldl_cons]
    apply ih
    rcases mainStep_plan anchors cycle st w with h | ⟨ch, h⟩ <;> rw [h]
    · exact hu
    · rw [List.map_append]
      exact List.mem_append.mpr (Or.inl hu)

/-- Folding the main loop preserves the invariant and plants every
processed variant. -/
theorem mainFold_inv {anchors : List Anchor} {cycle : Nat}
    (hK : ∀ a ∈ anchors, normalize_key a.text ≠ "")
    (hD : (anchors.map (fun a => normalize_key a.text)).Nodup)
    (a1 a2 a3 : Anchor) (h1 : a1 ∈ anchors) (h2 : a2 ∈ anchors)
    (h3 : a3 ∈ anchors)
    (h12 : anchor_type_key a1 ≠ anchor_type_key a2)
    (h13 : anchor_type_key a1 ≠ anchor_type_key a3)
    (h23 : anchor_type_key a2 ≠ anchor_type_key a3) :
    ∀ (labels : List String) (st : SelState), SelInv anchors st →
      (∀ v ∈ labels, v ∈ VARIANT_LABELS) →
      SelInv anchors (labels.foldl (mainStep anchors cycle) st) ∧
      (∀ v ∈ labels,
        v ∈ ((labels.foldl (mainStep anchors cycle) st).plan).map Prod.fst) := by
  intro labels
  induction labels with
  | nil => intro st hInv _; exact ⟨hInv, by intro v hv; cases hv⟩
  | cons w rest ih =>
    intro st hInv hlab
    have hw := hlab w (List.mem_cons_self _ _)
    have hstep := @mainStep_inv anchors cycle st w hK hD a1 a2 a3 h1 h2 h3
      h12 h13 h23 hInv hw
    rw [List.foldl_cons]
    have hrest := ih (mainStep anchors cycle st w) hstep.1
      (fun v hv => hlab v (List.mem_cons_of_mem _ hv))
    refine ⟨hrest.1, ?_⟩
    intro v hv
    rcases List.mem_cons.mp hv with h | h
    · subst h
      exact mainFold_keys_mono anchors cycle rest _ v hstep.2.1
    · exact hrest.2 v h

/-- The used-type list after a seeding step grows by at most the
required type. -/
theorem seedStep_usedTypes (anchors : List Anchor) (cycle : Nat) (st : SelState)
    (vr : String × String) :
    (seedStep anchors cycle st vr).usedTypes = st.usedTypes ∨
    (seedStep anchors cycle st vr).usedTypes = st.usedTypes ++ [vr.2] := by
  rw [seedStep]
  rcases hp : pick_rotated (anchors.filter fun a =>
      anchor_type_key a == vr.2 && normalize_key a.text != "" &&
      !st.usedTexts.contains (normalize_key a.text)) cycle with _ | c
  · exact Or.inl rfl
  · right
    show st.usedTypes ++ [anchor_type_key c] = st.usedTypes ++ [vr.2]
    have hcmem := pick_rotated_mem hp
    rw [List.mem_filter] at hcmem
    have := hcmem.2
    simp only [Bool.and_eq_true, beq_iff_eq] at this
    rw [this.1.1]

/-- C6 amended: when all anchors carry nonempty, pairwise distinct
normalized texts (the invariant guaranteed by the builder dedup), a
list containing three anchors of pairwise distinct cleaned types yields
a plan that uses at least three distinct anchor types, for every cycle
index. -/
theorem C6_diversity_amended (anchors : List Anchor) (cycle_index : Int)
    (hK : ∀ a ∈ anchors, normalize_key a.text ≠ "")
    (hD : (anchors.map (fun a => normalize_key a.text)).Nodup)
    (a1 a2 a3 : Anchor) (h1 : a1 ∈ anchors) (h2 : a2 ∈ anchors)
    (h3 : a3 ∈ anchors)
    (h12 : anchor_type_key a1 ≠ anchor_type_key a2)
    (h13 : anchor_type_key a1 ≠ anchor_type_key a3)
    (h23 : anchor_type_key a2 ≠ anchor_type_key a3) :
    3 ≤ ((select_anchor_plan anchors cycle_index).map
      (fun p => anchor_type_key p.2)).dedup.length := by
  have hunfold : select_anchor_plan anchors cycle_index =
      (VARIANT_LABELS.foldl (mainStep anchors ((max 0 cycle_index).toNat))
        (((VARIANT_LABELS.take
            ((if anchors.any (fun a => anchor_type_key a == "school") then
                ["school"] else []) ++
             (if anchors.any (fun a => anchor_type_key a == "industry") then
                ["industry"] else [])).length).zip
          ((if anchors.any (fun a => anchor_type_key a == "school") then
              ["school"] else []) ++
           (if anchors.any (fun a => anchor_type_key a == "industry") then
              ["industry"] else []))).foldl
          (seedStep anchors ((max 0 cycle_index).toNat)) ⟨[], [], []⟩)).plan := rfl
  rw [hunfold]
  set cyc := (max 0 cycle_index).toNat with hcyc
  set seeds := ((VARIANT_LABELS.take
      ((if anchors.any (fun a => anchor_type_key a == "school") then
          ["school"] else []) ++
       (if anchors.any (fun a => anchor_type_key a == "industry") then
          ["industry"] else [])).length).zip
    ((if anchors.any (fun a => anchor_type_key a == "school") then
        ["school"] else []) ++
     (if anchors.any (fun a => anchor_type_key a == "industry") then
        ["industry"] else []))) with hseedsdef
  set st0 := seeds.foldl (seedStep anchors cyc) ⟨[], [], []⟩ with hst0
  have hInvInit : SelInv anchors ⟨[], [], []⟩ := by
    refine ⟨rfl, rfl, ?_, List.nodup_nil, List.nodup_nil, ?_⟩ <;>
      intro p hp <;> cases hp
  have hInv0 : SelInv anchors st0 := by
    rw [hst0, hseedsdef]
    by_cases hA : anchors.any (fun a => anchor_type_key a == "school") = true <;>
      by_cases hB : anchors.any (fun a => anchor_type_key a == "industry") = true
    · rw [if_pos hA, if_pos hB]
      show SelInv anchors ([("short", "school"), ("direct", "industry")].foldl
        (seedStep anchors cyc) ⟨[], [], []⟩)
      rw [List.foldl_cons, List.foldl_cons, List.foldl_nil]
      have hInv1 : SelInv anchors (seedStep anchors cyc ⟨[], [], []⟩
          ("short", "school")) := by
        refine seedStep_inv hInvInit (by decide) ?_ ?_
        · intro h; cases h
        · intro h; cases h
      refine seedStep_inv hInv1 (by decide) ?_ ?_
      · rcases seedStep_plan anchors cyc ⟨[], [], []⟩ ("short", "school") with
          h | ⟨ch, h⟩ <;> rw [h] <;> intro hmem <;> simp at hmem
      · rcases seedStep_usedTypes anchors cyc ⟨[], [], []⟩ ("short", "school") with
          h | h <;> rw [h] <;> intro hmem <;> simp at hmem
    · rw [if_pos hA, if_neg hB]
      show SelInv anchors ([("short", "school")].foldl
        (seedStep anchors cyc) ⟨[], [], []⟩)
      rw [List.foldl_cons, List.foldl_nil]
      refine seedStep_inv hInvInit (by decide) ?_ ?_
      · intro h; cases h
      · intro h; cases h
    · rw [if_neg hA, if_pos hB]
      show SelInv anchors ([("short", "industry")].foldl
        (seedStep anchors cyc) ⟨[], [], []⟩)
      rw [List.foldl_cons, List.foldl_nil]
      refine seedStep_inv hInvInit (by decide) ?_ ?_
      · intro h; cases h
      · intro h; cases h
    · rw [if_neg hA, if_neg hB]
      exact hInvInit
  have hfold := @mainFold_inv anchors cyc hK hD a1 a2 a3 h1 h2 h3 h12 h13 h23
    VARIANT_LABELS st0 hInv0 (fun v hv => hv)
  obtain ⟨⟨-, -, -, hTyNodup, hKeyNodup, hKeyLab⟩, hall⟩ := hfold
  have h3le : 3 ≤ ((VARIANT_LABELS.foldl (mainStep anchors cyc) st0).plan).length := by
    have hlab : VARIANT_LABELS.length ≤
        (((VARIANT_LABELS.foldl (mainStep anchors cyc) st0).plan).map
          Prod.fst).length :=
      length_le_of_nodup_subset (by decide) hall
    rw [List.length_map] at hlab
    simpa using hlab
  rw [List.Nodup.dedup hTyNodup, List.length_map]
  exact h3le

/-- Witness for the amended C6 at a concrete anchor list and cycle. -/
theorem C6_diversity_amended_witness :
    ((∀ a ∈ ([⟨"company", "x", 9, ""⟩, ⟨"role", "y", 6, ""⟩,
        ⟨"location", "z", 6, ""⟩] : List Anchor), normalize_key a.text ≠ "")) ∧
    3 ≤ ((select_anchor_plan [⟨"company", "x", 9, ""⟩, ⟨"role", "y", 6, ""⟩,
        ⟨"location", "z", 6, ""⟩] 2).map (fun p => anchor_type_key p.2)).dedup.length :=
  ⟨by decide,
   C6_diversity_amended [⟨"company", "x", 9, ""⟩, ⟨"role", "y", 6, ""⟩,
      ⟨"location", "z", 6, ""⟩] 2 (by decide) (by decide)
     ⟨"company", "x", 9, ""⟩ ⟨"role", "y", 6, ""⟩ ⟨"location", "z", 6, ""⟩
     (by decide) (by decide) (by decide) (by decide) (by decide) (by decide)⟩

/-! ### Claim C4: hook-text length -/

/-- compact_hook_text either returns a string of at most 70 characters
or returns the target fact unchanged. -/
theorem compact_hook_text_spec (h t : String) :
    (compact_hook_text h t).length ≤ 70 ∨ compact_hook_text h t = t := by
  have hEq : compact_hook_text h t =
      (if collapseWs h == "" then t
       else if decide ((collapseWs h).length ≤ 70) then collapseWs h
       else if t != "" && decide (t.length ≤ 70) then t
       else pyRstrip (pyTake 67 (collapseWs h)) ++ "...") := rfl
  rw [hEq]
  by_cases h1 : (collapseWs h == "") = true
  · rw [if_pos h1]; exact Or.inr rfl
  · rw [if_neg h1]
    by_cases h2 : (decide ((collapseWs h).length ≤ 70)) = true
    · rw [if_pos h2]; exact Or.inl (of_decide_eq_true h2)
    · rw [if_neg h2]
      by_cases h3 : (t != "" && decide (t.length ≤ 70)) = true
      · rw [if_pos h3]; exact Or.inr rfl
      · rw [if_neg h3]
        left
        rw [string_append_length]
        have h4 : (pyRstrip (pyTake 67 (collapseWs h))).length ≤ 67 :=
          Nat.le_trans (pyRstrip_length_le _) (pyTake_length_le 67 _)
        have h5 : ("..." : String).length = 3 := rfl
        omega

/-- Any text produced by the candidate scan is the whitespace-collapsed
form of one of the candidates. -/
theorem hookCandidateScan_spec (used : List String) :
    ∀ (cands : List String) (t : String),
      hookCandidateScan used cands = some t → ∃ c ∈ cands, t = collapseWs c := by
  intro cands
  induction cands with
  | nil => intro t h; exact absurd h (by simp [hookCandidateScan])
  | cons c rest ih =>
    intro t h
    simp only [hookCandidateScan] at h
    by_cases h1 : (collapseWs c == "") = true
    · rw [if_pos h1] at h
      obtain ⟨c2, hc2, ht⟩ := ih t h
      exact ⟨c2, List.mem_cons_of_mem _ hc2, ht⟩
    · rw [if_neg h1] at h
      by_cases h2 : (normalize_key (collapseWs c) == "") = true
      · rw [if_pos h2] at h
        obtain ⟨c2, hc2, ht⟩ := ih t h
        exact ⟨c2, List.mem_cons_of_mem _ hc2, ht⟩
      · rw [if_neg h2] at h
        by_cases h3 : (used.contains (normalize_key (collapseWs c))) = true
        · rw [if_pos h3] at h
          obtain ⟨c2, hc2, ht⟩ := ih t h
          exact ⟨c2, List.mem_cons_of_mem _ hc2, ht⟩
        · rw [if_neg h3] at h
          by_cases h4 : (is_likely_metadata_company (collapseWs c)) = true
          · rw [if_pos h4] at h
            obtain ⟨c2, hc2, ht⟩ := ih t h
            exact ⟨c2, List.mem_cons_of_mem _ hc2, ht⟩
          · rw [if_neg h4] at h
            exact ⟨c, List.mem_cons_self _ _, (Option.some_inj.mp h).symm⟩

/-- The chosen hook text is the default phrase, or the collapsed form
of the primary hook, of the target fact, of an anchor text, or of a
boosted fact text. -/
theorem choose_unique_hook_text_spec (ph tf : String) (anchors : List Anchor)
    (boosted : List Fact) (used : List String) :
    choose_unique_hook_text ph tf anchors boosted used = "your work" ∨
    choose_unique_hook_text ph tf anchors boosted used = collapseWs ph ∨
    choose_unique_hook_text ph tf anchors boosted used = collapseWs tf ∨
    (∃ a ∈ anchors,
      choose_unique_hook_text ph tf anchors boosted used = collapseWs a.text) ∨
    (∃ f ∈ boosted,
      choose_unique_hook_text ph tf anchors boosted used = collapseWs f.text) := by
  rcases hscan : hookCandidateScan used ([ph, tf] ++
      anchors.map (fun a => a.text) ++ boosted.map (fun f => f.text)) with _ | t
  · have hval : choose_unique_hook_text ph tf anchors boosted used =
        (if collapseWs (if ph != "" then ph else tf) != "" &&
            !is_likely_metadata_company (collapseWs (if ph != "" then ph else tf)) then
          collapseWs (if ph != "" then ph else tf)
         else "your work") := by
      simp only [choose_unique_hook_text, hscan]
    rw [hval]
    by_cases hc : (collapseWs (if ph != "" then ph else tf) != "" &&
        !is_likely_metadata_company (collapseWs (if ph != "" then ph else tf))) = true
    · rw [if_pos hc]
      by_cases hph : (ph != "") = true
      · rw [if_pos hph]; exact Or.inr (Or.inl rfl)
      · rw [if_neg hph]; exact Or.inr (Or.inr (Or.inl rfl))
    · rw [if_neg hc]; exact Or.inl rfl
  · have hval : choose_unique_hook_text ph tf anchors boosted used = t := by
      simp only [choose_unique_hook_text, hscan]
    obtain ⟨c, hc, ht⟩ := hookCandidateScan_spec used _ t hscan
    rw [hval, ht]
    rcases List.mem_append.mp hc with hc1 | hcb
    · rcases List.mem_append.mp hc1 with hc2 | hca
      · rcases List.mem_cons.mp hc2 with h | h
        · subst h; exact Or.inr (Or.inl rfl)
        · have h2 : c = tf := List.mem_singleton.mp h
          subst h2; exact Or.inr (Or.inr (Or.inl rfl))
      · obtain ⟨a, ha, hae⟩ := List.mem_map.mp hca
        exact Or.inr (Or.inr (Or.inr (Or.inl ⟨a, ha, by rw [hae]⟩)))
    · obtain ⟨f, hf, hfe⟩ := List.mem_map.mp hcb
      exact Or.inr (Or.inr (Or.inr (Or.inr ⟨f, hf, by rw [hfe]⟩)))

/-- The final hook text for a variant stays within 70 characters unless
it is the collapsed text of an anchor or of a boosted fact. -/
theorem hook_result_ok (h0 tfv : String) (anchors : List Anchor)
    (boosted : List Fact) (used : List String)
    (htf : (∃ f ∈ boosted, tfv = f.text) ∨ tfv = "") :
    (choose_unique_hook_text (compact_hook_text h0 tfv) tfv anchors boosted
        used).length ≤ 70 ∨
    (∃ a ∈ anchors, choose_unique_hook_text (compact_hook_text h0 tfv) tfv
        anchors boosted used = collapseWs a.text) ∨
    (∃ f ∈ boosted, choose_unique_hook_text (compact_hook_text h0 tfv) tfv
        anchors boosted used = collapseWs f.text) := by
  have htfcase : (collapseWs tfv).length ≤ 70 ∨
      ∃ f ∈ boosted, collapseWs tfv = collapseWs f.text := by
    rcases htf with ⟨f, hf, he⟩ | he
    · exact Or.inr ⟨f, hf, by rw [he]⟩
    · left; rw [he]; decide
  rcases choose_unique_hook_text_spec (compact_hook_text h0 tfv) tfv anchors
      boosted used with h1 | h1 | h1 | h1 | h1
  · left; rw [h1]; decide
  · rcases compact_hook_text_spec h0 tfv with h2 | h2
    · left; rw [h1]; exact Nat.le_trans (collapseWs_length_le _) h2
    · rw [h1, h2]
      rcases htfcase with h3 | ⟨f, hf, h3⟩
      · exact Or.inl h3
      · exact Or.inr (Or.inr ⟨f, hf, h3⟩)
  · rw [h1]
    rcases htfcase with h3 | ⟨f, hf, h3⟩
    · exact Or.inl h3
    · exact Or.inr (Or.inr ⟨f, hf, h3⟩)
  · exact Or.inr (Or.inl h1)
  · exact Or.inr (Or.inr h1)

/-- Unfolding of the fact-selection step when a fresh fact is found. -/
theorem selFactStep_some (boosted : List Fact)
    (st : List (String × Fact) × List String) (v : String) (f : Fact)
    (h : boosted.find? (fun g => normalize_key g.text != "" &&
        !st.2.contains (normalize_key g.text)) = some f) :
    selFactStep boosted st v = (st.1 ++ [(v, f)], st.2 ++ [normalize_key f.text]) := by
  unfold selFactStep
  rw [h]

/-- Unfolding of the fact-selection step when no fresh fact is found
but the pool is nonempty. -/
theorem selFactStep_none_cons (boosted : List Fact)
    (st : List (String × Fact) × List String) (v : String) (g0 : Fact)
    (btl : List Fact)
    (h : boosted.find? (fun g => normalize_key g.text != "" &&
        !st.2.contains (normalize_key g.text)) = none)
    (hb : boosted = g0 :: btl) :
    selFactStep boosted st v = (st.1 ++ [(v, g0)], st.2) := by
  subst hb
  have he : selFactStep (g0 :: btl) st v = (match (g0 :: btl).find? (fun g =>
      normalize_key g.text != "" && !st.2.contains (normalize_key g.text)) with
    | some f => (st.1 ++ [(v, f)], st.2 ++ [normalize_key f.text])
    | none => match g0 :: btl with
      | g :: _ => (st.1 ++ [(v, g)], st.2)
      | [] => (st.1 ++ [(v, ({ type := "other", text := "", score := 0 } : Fact))],
          st.2)) := rfl
  rw [he, h]

/-- Unfolding of the fact-selection step on the empty pool. -/
theorem selFactStep_nil (st : List (String × Fact) × List String) (v : String) :
    selFactStep [] st v =
      (st.1 ++ [(v, ({ type := "other", text := "", score := 0 } : Fact))], st.2) := rfl

/-- Each fact accumulated by the fact-selection fold comes from the
boosted pool or is the empty filler fact. -/
theorem selected_foldl_mem (boosted : List Fact) (vs : List String) :
    ∀ (st : List (String × Fact) × List String),
      (∀ q ∈ st.1, q.2 ∈ boosted ∨ q.2.text = "") →
      ∀ q ∈ (vs.foldl (selFactStep boosted) st).1, q.2 ∈ boosted ∨ q.2.text = "" := by
  induction vs with
  | nil => intro st hst q hq; exact hst q hq
  | cons v rest ih =>
    intro st hst q hq
    rw [List.foldl_cons] at hq
    refine ih _ ?_ q hq
    intro r hr
    rcases hfind : boosted.find? (fun g => normalize_key g.text != "" &&
        !st.2.contains (normalize_key g.text)) with _ | f
    · rcases hb : boosted with _ | ⟨g0, btl⟩
      · subst hb
        rw [selFactStep_nil st v] at hr
        have hr2 : r ∈ st.1 ++
            [(v, ({ type := "other", text := "", score := 0 } : Fact))] := hr
        rcases List.mem_append.mp hr2 with h | h
        · exact hst r h
        · right
          have h2 := List.mem_singleton.mp h
          rw [h2]
      · rw [selFactStep_none_cons boosted st v g0 btl hfind hb] at hr
        rw [hb] at hst
        have hr2 : r ∈ st.1 ++ [(v, g0)] := hr
        rcases List.mem_append.mp hr2 with h | h
        · exact hst r h
        · left
          have h2 := List.mem_singleton.mp h
          rw [h2]
          exact List.mem_cons_self _ _
    · rw [selFactStep_some boosted st v f hfind] at hr
      have hr2 : r ∈ st.1 ++ [(v, f)] := hr
      rcases List.mem_append.mp hr2 with h | h
      · exact hst r h
      · left
        have h2 := List.mem_singleton.mp h
        rw [h2]
        exact List.mem_of_find?_eq_some hfind

/-- Each selected per-variant fact comes from the boosted pool or has
empty text. -/
theorem mem_selected_facts_for (boosted : List Fact) (v : String) (f : Fact)
    (h : (v, f) ∈ selected_facts_for boosted) : f ∈ boosted ∨ f.text = "" :=
  selected_foldl_mem boosted VARIANT_LABELS ([], [])
    (fun q hq => absurd hq (List.not_mem_nil q)) (v, f) h

/-- Shape of one bridge-plan step: the accumulated plan grows by the
entry built for the variant. -/
theorem bridgeStep_fst (tp : TargetProfile) (tags : List String)
    (anchors : List Anchor) (anchor_plan : List (String × Anchor))
    (rpp : List RankedPoint) (pps : List String) (cfn : Anchor → String)
    (boosted : List Fact) (hsf : Option Fact) (selected : List (String × Fact))
    (st : List (String × BridgeEntry) × List String) (v : String) :
    (bridgeStep tp tags anchors anchor_plan rpp pps cfn boosted hsf selected
        st v).1 =
      st.1 ++ [(v,
        { target_fact := ((findEntry v selected).getD
            { type := "other", text := "", score := 0 }).text,
          hook_text := choose_unique_hook_text
            (compact_hook_text
              (if (cfn ((findEntry v anchor_plan).getD emptyAnchor) == "domain" ||
                    cfn ((findEntry v anchor_plan).getD emptyAnchor) == "location") &&
                    decide (((findEntry v anchor_plan).getD emptyAnchor).score < 7) &&
                    hsf.isSome then
                if ((findEntry v selected).getD
                    { type := "other", text := "", score := 0 }).text != "" then
                  ((findEntry v selected).getD
                    { type := "other", text := "", score := 0 }).text
                else (hsf.getD { type := "", text := "", score := 0 }).text
              else ((findEntry v anchor_plan).getD emptyAnchor).text)
              ((findEntry v selected).getD
                { type := "other", text := "", score := 0 }).text)
            ((findEntry v selected).getD
              { type := "other", text := "", score := 0 }).text
            anchors boosted st.2,
          proof_point := select_proof_point_for_variant tags
            (cfn ((findEntry v anchor_plan).getD emptyAnchor)) pps rpp,
          intent := build_intent tags ((findEntry v selected).getD
            { type := "other", text := "", score := 0 }).text tp,
          cta := (findEntry v CTA_BY_VARIANT).getD "",
          required_token := "" })] := rfl

/-- One bridge-plan step preserves the hook-text bound. -/
theorem bridgeStep_hook_pres (tp : TargetProfile) (tags : List String)
    (anchors : List Anchor) (anchor_plan : List (String × Anchor))
    (rpp : List RankedPoint) (pps : List String) (cfn : Anchor → String)
    (boosted : List Fact) (hsf : Option Fact) (selected : List (String × Fact))
    (hsel : ∀ q ∈ selected, q.2 ∈ boosted ∨ q.2.text = "")
    (st : List (String × BridgeEntry) × List String) (v : String)
    (hst : ∀ q ∈ st.1, q.2.hook_text.length ≤ 70 ∨
      (∃ a ∈ anchors, q.2.hook_text = collapseWs a.text) ∨
      (∃ f ∈ boosted, q.2.hook_text = collapseWs f.text)) :
    ∀ q ∈ (bridgeStep tp tags anchors anchor_plan rpp pps cfn boosted hsf
        selected st v).1,
      q.2.hook_text.length ≤ 70 ∨
      (∃ a ∈ anchors, q.2.hook_text = collapseWs a.text) ∨
      (∃ f ∈ boosted, q.2.hook_text = collapseWs f.text) := by
  intro q hq
  rw [bridgeStep_fst] at hq
  rcases List.mem_append.mp hq with h | h
  · exact hst q h
  · have h2 := List.mem_singleton.mp h
    rw [h2]
    refine hook_result_ok _ _ anchors boosted st.2 ?_
    rcases hfe : findEntry v selected with _ | f0
    · exact Or.inr rfl
    · rcases hsel (v, f0) (findEntry_pair_mem v selected f0 hfe) with hm | hm
      · exact Or.inl ⟨f0, hm, rfl⟩
      · exact Or.inr hm

/-- The bridge-plan fold preserves the hook-text bound. -/
theorem bridgeFold_hook (tp : TargetProfile) (tags : List String)
    (anchors : List Anchor) (anchor_plan : List (String × Anchor))
    (rpp : List RankedPoint) (pps : List String) (cfn : Anchor → String)
    (boosted : List Fact) (hsf : Option Fact) (selected : List (String × Fact))
    (hsel : ∀ q ∈ selected, q.2 ∈ boosted ∨ q.2.text = "") (vs : List String) :
    ∀ (st : List (String × BridgeEntry) × List String),
      (∀ q ∈ st.1, q.2.hook_text.length ≤ 70 ∨
        (∃ a ∈ anchors, q.2.hook_text = collapseWs a.text) ∨
        (∃ f ∈ boosted, q.2.hook_text = collapseWs f.text)) →
      ∀ q ∈ (vs.foldl (bridgeStep tp tags anchors anchor_plan rpp pps cfn
          boosted hsf selected) st).1,
        q.2.hook_text.length ≤ 70 ∨
        (∃ a ∈ anchors, q.2.hook_text = collapseWs a.text) ∨
        (∃ f ∈ boosted, q.2.hook_text = collapseWs f.text) := by
  induction vs with
  | nil => intro st hst q hq; exact hst q hq
  | cons v rest ih =>
    intro st hst q hq
    rw [List.foldl_cons] at hq
    exact ih _ (bridgeStep_hook_pres tp tags anchors anchor_plan rpp pps cfn
      boosted hsf selected hsel st v hst) q hq

set_option maxRecDepth 4000 in
/-- C4 counterexample: with a 71-character company name, the hook text
of the "short" variant of the bridge plan has 71 characters, exceeding
the claimed 70-character bound. -/
theorem C4_counterexample :
    ∃ p ∈ build_bridge_plan emptyMyProfile c4_target [] [] [] []
        (build_target_facts c4_target) [] classify_anchor_type,
      70 < p.2.hook_text.length := by decide

/-- C4 amended: every hook text in a bridge plan is at most 70
characters, unless it is the whitespace-collapsed text of one of the
anchors or of one of the boosted target facts, which the compactor may
substitute without truncating. -/
theorem C4_hook_length_amended (mp : MyProfile) (tp : TargetProfile)
    (tags : List String) (anchors : List Anchor)
    (anchor_plan : List (String × Anchor)) (rpp : List RankedPoint)
    (target_facts : List Fact) (pps : List String) (cfn : Anchor → String) :
    ∀ p ∈ build_bridge_plan mp tp tags anchors anchor_plan rpp target_facts
        pps cfn,
      p.2.hook_text.length ≤ 70 ∨
      (∃ a ∈ anchors, p.2.hook_text = collapseWs a.text) ∨
      (∃ f ∈ boost_school_facts mp target_facts,
        p.2.hook_text = collapseWs f.text) := by
  intro p hp
  have hp2 : p ∈ (VARIANT_LABELS.foldl (bridgeStep tp tags anchors anchor_plan
      rpp pps cfn (boost_school_facts mp target_facts)
      ((boost_school_facts mp target_facts).find? fun f =>
        f.type == "role_company" || f.type == "company" || f.type == "school")
      (selected_facts_for (boost_school_facts mp target_facts)))
      ([], [])).1 := hp
  refine bridgeFold_hook tp tags anchors anchor_plan rpp pps cfn
    (boost_school_facts mp target_facts) _ _ ?_ VARIANT_LABELS ([], [])
    ?_ p hp2
  · intro q hq
    exact mem_selected_facts_for (boost_school_facts mp target_facts) q.1 q.2 hq
  · intro q hq
    exact absurd hq (List.not_mem_nil q)

set_option maxRecDepth 4000 in
/-- Witness for the amended C4 at empty inputs, where the "short"
variant's hook falls back to the default phrase. -/
theorem C4_hook_length_amended_witness :
    (("short", c4_empty_entry) ∈ build_bridge_plan emptyMyProfile
        emptyTargetProfile [] [] [] [] [] [] classify_anchor_type) ∧
    (("short", c4_empty_entry).2.hook_text.length ≤ 70 ∨
      (∃ a ∈ ([] : List Anchor),
        ("short", c4_empty_entry).2.hook_text = collapseWs a.text) ∨
      (∃ f ∈ boost_school_facts emptyMyProfile [],
        ("short", c4_empty_entry).2.hook_text = collapseWs f.text)) :=
  ⟨by decide, C4_hook_length_amended emptyMyProfile emptyTargetProfile [] [] []
      [] [] [] classify_anchor_type ("short", c4_empty_entry) (by decide)⟩

/-! ### Claim C7 -/

theorem string_eq_empty_of_data {s : String} (h : s.data = []) : s = "" := by
  cases s with
  | mk data =>
    simp at h
    subst h
    rfl

/-- C7: appending a nonempty banned phrase to a nonempty text whose
validation is clean always adds "contains banned phrase", and no
violation of the original text disappears (vacuously: it has none). -/
theorem C7_validator_banned_phrase (text : String) (plan : BridgeEntry)
    (banlist : List String) (phrase : String)
    (htext : text ≠ "") (hvalid : validate_variant_text text plan banlist = [])
    (hmem : phrase ∈ banlist) (hph : phrase ≠ "") :
    "contains banned phrase" ∈ validate_variant_text (text ++ phrase) plan banlist ∧
    ∀ v ∈ validate_variant_text text plan banlist,
      v ∈ validate_variant_text (text ++ phrase) plan banlist := by
  constructor
  · have happ : ((text ++ phrase) == "") = false := by
      simp only [beq_eq_false_iff_ne, ne_eq]
      intro h
      apply htext
      apply string_eq_empty_of_data
      have := congrArg String.data h
      rw [String.data_append] at this
      exact (List.append_eq_nil.mp this).1
    rw [validate_variant_text]
    rw [if_neg (by simp [happ])]
    have hany : banlist.any (fun p =>
        p != "" && containsSubStr (pyLower p) (pyLower (text ++ phrase))) = true := by
      apply List.any_eq_true.mpr
      refine ⟨phrase, hmem, ?_⟩
      simp only [Bool.and_eq_true, bne_iff_ne, ne_eq]
      refine ⟨hph, ?_⟩
      show containsSub (pyLower phrase).data (pyLower (text ++ phrase)).data = true
      have hdata : (pyLower (text ++ phrase)).data =
          (pyLower text).data ++ (pyLower phrase).data := by
        simp [pyLower, String.data_append]
      rw [hdata]
      exact containsSub_append_right _ _
    refine List.mem_append.mpr (Or.inr ?_)
    rw [if_pos hany]
    exact List.mem_singleton.mpr rfl
  · rw [hvalid]
    intro v hv
    cases hv

/-- Witness for C7 at a concrete input. -/
theorem C7_validator_banned_phrase_witness :
    ("hi" ≠ "" ∧
      validate_variant_text "hi" ⟨"", "", "", "", "", ""⟩ ["qq"] = [] ∧
      "qq" ∈ (["qq"] : List String) ∧ "qq" ≠ "") ∧
    "contains banned phrase" ∈
      validate_variant_text ("hi" ++ "qq") ⟨"", "", "", "", "", ""⟩ ["qq"] :=
  ⟨⟨by decide, by decide, by decide, by decide⟩,
   (C7_validator_banned_phrase "hi" ⟨"", "", "", "", "", ""⟩ ["qq"] "qq"
     (by decide) (by decide) (by decide) (by decide)).1⟩

/-! ### Claim C10 -/

/-- C10: when the proof point is nonempty but none of its normalized
tokens reaches length 4, the token-overlap presence check is vacuously
satisfied and "missing proof_point" is never reported, for any text and
banlist. -/
theorem C10_short_proof_point_never_missing (text : String) (plan : BridgeEntry)
    (banlist : List String)
    (_hpp : plan.proof_point ≠ "")
    (htok : ∀ t ∈ pySplitWs (normalize_key plan.proof_point), t.length < 4) :
    "missing proof_point" ∉ validate_variant_text text plan banlist := by
  have hoverlap : has_token_overlap text plan.proof_point 3 = true := by
    rw [has_token_overlap]
    have hfilter : (pySplitWs (normalize_key plan.proof_point)).filter
        (fun t => decide (4 ≤ t.length)) = [] := by
      rw [List.filter_eq_nil_iff]
      intro t ht
      simpa using Nat.not_le.mpr (htok t ht)
    rw [hfilter]
    simp
  rw [validate_variant_text]
  split
  · simp
  · intro hmem
    simp only [List.mem_append] at hmem
    rcases hmem with ((((((h | h) | h) | h) | h) | h) | h)
    · split at h
      · exact absurd (List.mem_singleton.mp h) (by decide)
      · cases h
    · split at h
      · exact absurd (List.mem_singleton.mp h) (by decide)
      · cases h
    · split at h
      · exact absurd (List.mem_singleton.mp h) (by decide)
      · cases h
    · split at h
      · rename_i hcond
        rw [Bool.and_eq_true, Bool.not_eq_true'] at hcond
        rw [hoverlap] at hcond
        exact absurd hcond.2 (by decide)
      · cases h
    · split at h
      · exact absurd (List.mem_singleton.mp h) (by decide)
      · cases h
    · split at h
      · exact absurd (List.mem_singleton.mp h) (by decide)
      · cases h
    · split at h
      · exact absurd (List.mem_singleton.mp h) (by decide)
      · cases h

/-- Witness for C10 at a concrete input: proof point "ml ai" has only
short tokens, text does not mention it, yet no violation is reported. -/
theorem C10_short_proof_point_never_missing_witness :
    (("ml ai" : String) ≠ "" ∧
      ∀ t ∈ pySplitWs (normalize_key "ml ai"), t.length < 4) ∧
    "missing proof_point" ∉
      validate_variant_text "hello" ⟨"", "", "ml ai", "", "", ""⟩ [] :=
  ⟨⟨by decide, by decide⟩,
   C10_short_proof_point_never_missing "hello" ⟨"", "", "ml ai", "", "", ""⟩ []
     (by decide) (by decide)⟩

/-! ### Claim C1 -/

/-- C1, Scenario C: with empty profiles, hooks, tags, anchors, facts and
proof points, the anchor builder returns the empty list, the plan
selector returns the empty plan, and the bridge plan has, for every
variant, empty target fact, hook "your work", empty proof point, the
generic intent and the fixed CTA, with the required token empty. -/
theorem C1_scenario_empty :
    build_anchor_candidates emptyMyProfile emptyTargetProfile [] [] [] none = [] ∧
    select_anchor_plan [] 0 = [] ∧
    build_bridge_plan emptyMyProfile emptyTargetProfile [] [] [] [] [] []
      classify_anchor_type =
      [("short", ⟨"", "your work", "", "Curious about your path at your work",
         "Open to connect?", ""⟩),
       ("direct", ⟨"", "your work", "", "Curious about your path at your work",
         "Open to a quick chat?", ""⟩),
       ("warm", ⟨"", "your work", "", "Curious about your path at your work",
         "Worth connecting?", ""⟩)] := by
  decide

/-- Witness for the amended C9 at a concrete input. -/
theorem C9_headline_school_amended_witness :
    ((⟨"", "", ["Columbia University"], [], [], [], "", []⟩ : MyProfile).schools
      = ["Columbia University"]) ∧
    ∃ a ∈ build_anchor_candidates
        ⟨"", "", ["Columbia University"], [], [], [], "", []⟩
        ⟨"", "Columbia University grad", "", "", [], []⟩ [] [] [] none,
      a.type = "school" ∧
      (if is_nyc (⟨"", "", ["Columbia University"], [], [], [], "", []⟩ :
          MyProfile).location &&
          is_nyc (⟨"", "Columbia University grad", "", "", [], []⟩ :
            TargetProfile).location then
        a.text = clean_school_name "Columbia University" ++ " alum in NYC" ∧
          a.score = 16
      else
        a.text = clean_school_name "Columbia University" ++ " alum" ∧
          a.score = 12) :=
  ⟨rfl, C9_headline_school_amended
    ⟨"", "", ["Columbia University"], [], [], [], "", []⟩
    ⟨"", "Columbia University grad", "", "", [], []⟩ [] none
    "Columbia University" rfl rfl (by decide) (Or.inl ⟨by decide, by decide⟩)⟩

end OrgTools
